import Mathlib

/-! Verification of the PTL-Landing build-time asset pipeline.

The development shallowly embeds the two scripts of the repository:

* the font-subsetting script (glyph extraction from `index.html`,
  range compaction into a fonttools `--unicodes=` argument, and the
  in-place replacement contract of `subsetOneFont`), and
* `scripts/fingerprint-assets.js` (content digests, `ensureCopyWithHash`,
  and the regex-based reference rewriting of `main`).

Strings are modelled as `List Char`; the filesystem as an association
list from paths to contents; every scanner that consumes its input by a
variable amount is written with an explicit fuel argument equal to the
input length so that all definitions reduce in the kernel.
-/

namespace PTL

/-! Section: Basic string utilities -/

/-- Boolean test that `pat` is a prefix of `l` (exact characters). -/
def startsWith : List Char → List Char → Bool
  | [], _ => true
  | _ :: _, [] => false
  | p :: ps, c :: cs => p == c && startsWith ps cs

/-- Boolean test that `pat` is a prefix of `l` up to ASCII case folding.
Models matching a literal regex fragment carrying the `i` flag. -/
def matchesCI : List Char → List Char → Bool
  | [], _ => true
  | _ :: _, [] => false
  | p :: ps, c :: cs => p.toLower == c.toLower && matchesCI ps cs

/-- Boolean test that `pat` occurs as a contiguous substring of `l`. -/
def occursB (pat : List Char) : List Char → Bool
  | [] => startsWith pat []
  | c :: rest => startsWith pat (c :: rest) || occursB pat rest

/-- Drop characters of `l` up to and including the first case-insensitive
occurrence of `pat`; `none` when `pat` does not occur. -/
def dropThroughCI (pat : List Char) : List Char → Option (List Char)
  | [] => none
  | c :: rest =>
    if matchesCI pat (c :: rest) then some (List.drop pat.length (c :: rest))
    else dropThroughCI pat rest

/-- Drop characters of `l` up to and including the first occurrence of the
single character `stop`; `none` when `stop` does not occur. -/
def dropThroughChar (stop : Char) : List Char → Option (List Char)
  | [] => none
  | c :: rest => if c = stop then some rest else dropThroughChar stop rest

/-! Section: Glyph extractor (`extractCharsFromHTML`)

The source strips, in order, `<script …</script>` regions, then
`<style …</style>` regions (both replaced by the EMPTY string), then every
remaining `<…>` tag (replaced by one space), then decodes a fixed set of
six HTML entities.  Each global regex replace is modelled by a left-to-right
scanner with the same leftmost, shortest-content semantics as the lazy
JavaScript patterns. -/

/-- One fuel step of the `<open …close>`-element stripper.  At each position:
if the case-insensitive open pattern starts here and the close pattern occurs
later, the whole region through the end of the close pattern is removed
(replaced by nothing); otherwise one character is kept. -/
def stripElemAux (openPat closePat : List Char) : Nat → List Char → List Char
  | 0, l => l
  | _ + 1, [] => []
  | fuel + 1, c :: rest =>
    if matchesCI openPat (c :: rest) then
      match dropThroughCI closePat (List.drop openPat.length (c :: rest)) with
      | some rem => stripElemAux openPat closePat fuel rem
      | none => c :: stripElemAux openPat closePat fuel rest
    else c :: stripElemAux openPat closePat fuel rest

/-- Model of `html.replace(/<open[\s\S]*?close/gi, '')`. -/
def stripElem (openPat closePat l : List Char) : List Char :=
  stripElemAux openPat closePat l.length l

/-- One fuel step of the tag stripper: a `<`, any run of non-`>` characters
and a closing `>` are together replaced by a single space. -/
def stripTagsAux : Nat → List Char → List Char
  | 0, l => l
  | _ + 1, [] => []
  | fuel + 1, c :: rest =>
    if c = '<' then
      match dropThroughChar '>' rest with
      | some rem => ' ' :: stripTagsAux fuel rem
      | none => c :: stripTagsAux fuel rest
    else c :: stripTagsAux fuel rest

/-- Model of `text.replace(/<[^>]*>/g, ' ')`. -/
def stripTags (l : List Char) : List Char :=
  stripTagsAux l.length l

/-- One fuel step of literal global replacement: every non-overlapping
occurrence of `p :: ps`, scanned left to right, becomes `rep`. -/
def replaceLitAux (p : Char) (ps rep : List Char) : Nat → List Char → List Char
  | 0, l => l
  | _ + 1, [] => []
  | fuel + 1, c :: rest =>
    if startsWith (p :: ps) (c :: rest) then
      rep ++ replaceLitAux p ps rep fuel (List.drop ps.length rest)
    else c :: replaceLitAux p ps rep fuel rest

/-- Model of `text.replace(/literal/g, rep)` for a literal pattern. -/
def replaceLit (p : Char) (ps rep l : List Char) : List Char :=
  replaceLitAux p ps rep l.length l

/-- The apostrophe character, kept out of string literals. -/
def apos : Char := Char.ofNat 39

/-- Visible text of the HTML: scripts stripped, then styles, then tags,
then the six fixed entities decoded, in exactly the source order. -/
def extractText (html : List Char) : List Char :=
  replaceLit '&' "#39;".data [apos] (
  replaceLit '&' "quot;".data "\"".data (
  replaceLit '&' "gt;".data ">".data (
  replaceLit '&' "lt;".data "<".data (
  replaceLit '&' "amp;".data "&".data (
  replaceLit '&' "nbsp;".data " ".data (
  stripTags (
  stripElem "<style".data "</style>".data (
  stripElem "<script".data "</script>".data html))))))))

/-- The fixed baseline character set of the source (`base`). -/
def baseChars : List Char :=
  " \n\t".data ++
  "0123456789".data ++
  "ABCDEFGHIJKLMNOPQRSTUVWXYZ".data ++
  "abcdefghijklmnopqrstuvwxyz".data ++
  ".,;:!?\"".data ++ [apos] ++ "()[]\x7b\x7d<>-–—‑/+*&%#@^$=_`~|\\".data

/-- The fixed extras set of the source (`extras`). -/
def extrasChars : List Char :=
  "©‘’–—‑".data

/-- Model of `extractCharsFromHTML`: the distinct characters of
`text + base + extras`, sorted by codepoint. -/
def extractCharsFromHTML (html : List Char) : List Char :=
  List.insertionSort (fun a b => a ≤ b)
    ((extractText html ++ baseChars ++ extrasChars).dedup)

/-! Section: Range compactor (`charsToUnicodeArg`) -/

/-- The merge loop of `charsToUnicodeArg`, with the loop state
`start`/`prev` explicit.  Mirrors: extend the current run when
`cp = prev + 1`, otherwise push `[start, prev]` and restart at `cp`. -/
def mergeRangesAux : Nat → Nat → List Nat → List (Nat × Nat)
  | start, prev, [] => [(start, prev)]
  | start, prev, cp :: rest =>
    if cp = prev + 1 then mergeRangesAux start cp rest
    else (start, prev) :: mergeRangesAux cp cp rest

/-- Merge a sorted codepoint list into closed intervals of consecutive runs. -/
def mergeRanges : List Nat → List (Nat × Nat)
  | [] => []
  | cp :: rest => mergeRangesAux cp cp rest

/-- The codepoint set denoted by a list of closed intervals. -/
def decodeRanges : List (Nat × Nat) → Finset Nat
  | [] => ∅
  | p :: rest => Finset.Icc p.1 p.2 ∪ decodeRanges rest

/-- Elements of `s` that begin a maximal consecutive run. -/
def runStarts (s : Finset Nat) : Finset Nat :=
  s.filter (fun x => x = 0 ∨ x - 1 ∉ s)

/-- Intervals are ordered, valid, and separated by true gaps. -/
def RangesWF : List (Nat × Nat) → Prop
  | [] => True
  | p :: rest => p.1 ≤ p.2 ∧ (∀ q ∈ rest, p.2 + 1 < q.1) ∧ RangesWF rest

/-- Uppercase hexadecimal digit characters. -/
def hexDigitChar (n : Nat) : Char :=
  "0123456789ABCDEF".data.getD n '0'

/-- Fuel-driven uppercase hexadecimal rendering (no leading zeros). -/
def toHexAux : Nat → Nat → List Char
  | 0, _ => []
  | fuel + 1, n =>
    if n < 16 then [hexDigitChar n]
    else toHexAux fuel (n / 16) ++ [hexDigitChar (n % 16)]

/-- Model of `cp.toString(16).toUpperCase()`. -/
def toHexChars (n : Nat) : List Char :=
  toHexAux (n + 1) n

/-- Model of the `fmt` helper: uppercase hex, left-padded with zeros to at
least four digits. -/
def fmtCp (cp : Nat) : List Char :=
  List.replicate (4 - (toHexChars cp).length) '0' ++ toHexChars cp

/-- Serialize one interval: `U+XXXX` for a singleton, `U+XXXX-YYYY` else. -/
def serializeRange (p : Nat × Nat) : List Char :=
  if p.1 = p.2 then "U+".data ++ fmtCp p.1
  else "U+".data ++ fmtCp p.1 ++ "-".data ++ fmtCp p.2

/-- The merged intervals of a codepoint list, after the numeric sort that
`charsToUnicodeArg` performs. -/
def unicodeRanges (cps : List Nat) : List (Nat × Nat) :=
  mergeRanges (List.insertionSort (fun a b => a ≤ b) cps)

/-- The serialized tokens of the compacted specification, in order. -/
def unicodeTokens (cps : List Nat) : List (List Char) :=
  (unicodeRanges cps).map serializeRange

/-- Model of `charsToUnicodeArg`: tokens joined with commas. -/
def charsToUnicodeArg (chars : List Char) : List Char :=
  (unicodeTokens (chars.map Char.toNat)).intersperse ",".data |>.flatten

/-- Value of an uppercase hexadecimal digit character. -/
def hexDigitVal (c : Char) : Nat :=
  if c.toNat ≤ 57 then c.toNat - 48 else c.toNat - 55

/-- Decode an uppercase hexadecimal string back to a number. -/
def hexVal (l : List Char) : Nat :=
  l.foldl (fun a c => 16 * a + hexDigitVal c) 0

/-! Section: Fingerprinter (`scripts/fingerprint-assets.js`) -/

/-- The filesystem, as an association list path ↦ contents; the first entry
for a path wins. -/
abbrev FS := List (List Char × List Char)

/-- Model of reading a file: `some contents` when the path exists (the
contents of the first entry for the path). -/
def fsLookup : FS → List Char → Option (List Char)
  | [], _ => none
  | e :: fs, p => if e.1 = p then some e.2 else fsLookup fs p

/-- Model of `fs.existsSync`. -/
def existsSync (fs : FS) (p : List Char) : Bool :=
  (fsLookup fs p).isSome

/-- Model of writing (or overwriting) one whole file atomically. -/
def fsWrite (fs : FS) (p c : List Char) : FS :=
  (p, c) :: fs

/-- Remove every entry of a path. -/
def fsErase : FS → List Char → FS
  | [], _ => []
  | e :: fs, p => if e.1 = p then fsErase fs p else e :: fsErase fs p

/-- Model of `fs.renameSync src dst`: the destination is replaced by the
source contents and the source disappears. -/
def fsRename (fs : FS) (src dst : List Char) : FS :=
  match fsLookup fs src with
  | some c => fsWrite (fsErase fs src) dst c
  | none => fs

/-- Number of stored artifacts at a path. -/
def fsCount : FS → List Char → Nat
  | [], _ => 0
  | e :: fs, p => if e.1 = p then fsCount fs p + 1 else fsCount fs p

/-- Directory part of a path, with its trailing slash (empty when the path
has no slash). -/
def pathDirSlash (p : List Char) : List Char :=
  (p.reverse.dropWhile (fun c => c ≠ '/')).reverse

/-- Model of `path.basename`. -/
def pathBase (p : List Char) : List Char :=
  (p.reverse.takeWhile (fun c => c ≠ '/')).reverse

/-- Model of `path.extname`: from the last dot of the basename, empty when
the basename has no dot or only a leading dot. -/
def pathExt (p : List Char) : List Char :=
  let b := pathBase p
  let r := b.reverse.takeWhile (fun c => c ≠ '.')
  if r.length = b.length then []
  else if r.length + 1 = b.length then []
  else '.' :: r.reverse

/-- Basename without its extension (may contain spaces). -/
def pathStem (p : List Char) : List Char :=
  let b := pathBase p
  b.take (b.length - (pathExt p).length)

/-- The digest-named path: `.{hash}` inserted before the extension,
preserving directory and base name. -/
def hashedPath (file hash : List Char) : List Char :=
  pathDirSlash file ++ pathStem file ++ '.' :: hash ++ pathExt file

/-- Lowercase hexadecimal digit characters. -/
def lowHexDigitChar (n : Nat) : Char :=
  "0123456789abcdef".data.getD n '0'

/-- Ten-digit lowercase hexadecimal rendering of `n mod 16^10`. -/
def toHexLower10 (n : Nat) : List Char :=
  (List.range 10).map (fun i => lowHexDigitChar (n / 16 ^ (9 - i) % 16))

/-- Modelled from the spec: `hashFile` truncates a SHA-256 digest of the
exact byte content to 10 lowercase hex characters; the hash itself lives in
`node:crypto`, outside this repository, so it is modelled by a deterministic
stand-in digest with the same shape (10 lowercase hex digits, a pure
function of the content bytes). -/
def hashFile (content : List Char) : List Char :=
  toHexLower10 (content.foldl (fun a c => (a * 31 + c.toNat + 1) % 16 ^ 10) 7)

/-- Model of `ensureCopyWithHash`: copy `file` to its digest-named path
only when nothing exists there yet. -/
def ensureCopyWithHash (fs : FS) (file hash : List Char) : FS :=
  let hashed := hashedPath file hash
  if existsSync fs hashed then fs
  else
    match fsLookup fs file with
    | some content => fsWrite fs hashed content
    | none => fs

/-- Lowercase hexadecimal character class `[a-f0-9]` of the rewrite regex. -/
def isHexLower (c : Char) : Bool :=
  ('0' ≤ c && c ≤ '9') || ('a' ≤ c && c ≤ 'f')

/-- Consume exactly `k` hex characters, returning the rest. -/
def takeHex : Nat → List Char → Option (List Char)
  | 0, l => some l
  | _ + 1, [] => none
  | k + 1, c :: l => if isHexLower c then takeHex k l else none

/-- Try the optional regex group at width `k`: a dot, `k` hex digits, then
the extension; returns the remainder after the whole match. -/
def matchGroupK (ext t : List Char) (k : Nat) : Option (List Char) :=
  match t with
  | [] => none
  | c :: rest =>
    if c = '.' then
      (takeHex k rest).bind (fun r =>
        if startsWith ext r then some (List.drop ext.length r) else none)
    else none

/-- Match the asset regex `P(?:\.[a-f0-9]\x7b8,12\x7d)?ext` at the head of
`l`, trying the greedy widths 12 down to 8 first, then the bare extension;
returns the remainder after the match. -/
def tryMatch (P ext l : List Char) : Option (List Char) :=
  if startsWith P l then
    let t := List.drop P.length l
    match [12, 11, 10, 9, 8].findSome? (matchGroupK ext t) with
    | some r => some r
    | none => if startsWith ext t then some (List.drop ext.length t) else none
  else none

/-- One fuel step of the global regex replace of `main`: at each position
either the asset pattern matches and is replaced by `repl`, or one
character is kept. -/
def rwAux (P ext repl : List Char) : Nat → List Char → List Char
  | 0, l => l
  | _ + 1, [] => []
  | fuel + 1, c :: rest =>
    match tryMatch P ext (c :: rest) with
    | some rem => repl ++ rwAux P ext repl fuel rem
    | none => c :: rwAux P ext repl fuel rest

/-- Model of `replaceAll(html, /P(?:\.[a-f0-9]\x7b8,12\x7d)?ext/g, repl)`. -/
def rewriteAsset (P ext repl l : List Char) : List Char :=
  rwAux P ext repl l.length l

/-- Model of `web.replaceAll('/', '\\/').replaceAll('.', '\\.')`. -/
def escapeWeb (p : List Char) : List Char :=
  p.flatMap (fun c => if c = '/' ∨ c = '.' then ['\\', c] else [c])

/-- Literal global replacement for an arbitrary (possibly empty) pattern. -/
def replaceLitL (pat rep l : List Char) : List Char :=
  match pat with
  | [] => l
  | p :: ps => replaceLit p ps rep l

/-- Model of the legacy-escaped-path cleanup: when the escaped form of the
hashed web path occurs verbatim, every occurrence becomes the plain path. -/
def cleanupEscaped (hashedWeb html : List Char) : List Char :=
  let esc := escapeWeb hashedWeb
  if occursB esc html then replaceLitL esc hashedWeb html else html

/-- Web path of a root-relative file path. -/
def webPath (p : List Char) : List Char :=
  '/' :: p

/-- Source path of the stylesheet asset. -/
def cssSrc : List Char := "assets/tailwind.css".data

/-- Source path of the regular font asset. -/
def fontRegSrc : List Char := "fonts/Cormorant Variable Font.woff2".data

/-- Source path of the italic font asset. -/
def fontItaSrc : List Char := "fonts/Cormorant Italic Variable Font.woff2".data

/-- Path of the HTML entry point. -/
def indexSrc : List Char := "index.html".data

/-- Unhashed web path of the stylesheet, as in the rewrite regex. -/
def cssPat : List Char := "/assets/tailwind".data

/-- Stylesheet extension, as in the rewrite regex. -/
def cssExt : List Char := ".css".data

/-- Unhashed web path of the regular font, as in the rewrite regex. -/
def fontRegPat : List Char := "/fonts/Cormorant Variable Font".data

/-- Unhashed web path of the italic font, as in the rewrite regex. -/
def fontItaPat : List Char := "/fonts/Cormorant Italic Variable Font".data

/-- Font extension, as in the rewrite regex. -/
def woff2Ext : List Char := ".woff2".data

/-- Outcome of one fail-soft build step. -/
structure StepResult where
  fs : FS
  errored : Bool
  exitCode : Nat

/-- Current digest of a file in a filesystem (empty content if absent). -/
def digestOf (fs : FS) (f : List Char) : List Char :=
  hashFile ((fsLookup fs f).getD [])

/-- Hashed web path of a file in a filesystem. -/
def hashedWebOf (fs : FS) (f : List Char) : List Char :=
  webPath (hashedPath f (digestOf fs f))

/-- Model of `main` of `fingerprint-assets.js`.  `skipFlag` models the
`SKIP_FINGERPRINT=1` environment switch, `writeFails` injects a fault into
the final `writeFileSync` (modelled all-or-nothing, so a failed write
changes nothing).  A read of a missing `index.html` throws, as does the
unconditional `toWeb(outputs[cssFile])` when the stylesheet is absent
(`path.relative` on `undefined`); every throw is caught at the top and the
step exits 0. -/
def mainModel (fs0 : FS) (skipFlag writeFails : Bool) : StepResult :=
  if skipFlag then ⟨fs0, false, 0⟩
  else
    let files := [cssSrc, fontRegSrc, fontItaSrc].filter (fun f => existsSync fs0 f)
    if files.isEmpty then ⟨fs0, false, 0⟩
    else
      let fs1 := files.foldl (fun fs f => ensureCopyWithHash fs f (digestOf fs0 f)) fs0
      match fsLookup fs1 indexSrc with
      | none => ⟨fs1, true, 0⟩
      | some html0 =>
        if existsSync fs0 cssSrc = false then ⟨fs1, true, 0⟩
        else
        let html1 := rewriteAsset cssPat cssExt (hashedWebOf fs0 cssSrc) html0
        let html2 :=
          if existsSync fs0 fontRegSrc then
            cleanupEscaped (hashedWebOf fs0 fontRegSrc)
              (rewriteAsset fontRegPat woff2Ext (hashedWebOf fs0 fontRegSrc) html1)
          else html1
        let html3 :=
          if existsSync fs0 fontItaSrc then
            cleanupEscaped (hashedWebOf fs0 fontItaSrc)
              (rewriteAsset fontItaPat woff2Ext (hashedWebOf fs0 fontItaSrc) html2)
          else html2
        if writeFails then ⟨fs1, true, 0⟩
        else ⟨fsWrite fs1 indexSrc html3, false, 0⟩

/-! Section: Font subsetter (`subsetOneFont`) -/

/-- The declared output path of the external subsetting process. -/
def outTmpPath (src : List Char) : List Char :=
  src ++ ".subset.tmp.woff2".data

/-- Model of `subsetOneFont` after the external process has run:
`fsAfter` is the filesystem as the process left it (it may or may not have
created the declared output), `status` its exit status.  Success requires
exit status zero and an existing output, and then renames the output over
the original; otherwise nothing further is touched. -/
def subsetOneFont (fsAfter : FS) (src : List Char) (status : Int) : FS × Bool :=
  if status ≠ 0 ∨ existsSync fsAfter (outTmpPath src) = false then (fsAfter, false)
  else (fsRename fsAfter (outTmpPath src) src, true)

/-- The three tracked assets of `main`: source path, unhashed web path of
the rewrite regex, extension of the rewrite regex. -/
def trackedAssets : List (List Char × List Char × List Char) :=
  [(cssSrc, cssPat, cssExt), (fontRegSrc, fontRegPat, woff2Ext),
   (fontItaSrc, fontItaPat, woff2Ext)]

/-! Section: General lemmas about the string utilities -/

theorem startsWith_iff {p l : List Char} : startsWith p l = true ↔ p <+: l := by
  induction p generalizing l with
  | nil => simp [startsWith]
  | cons a ps ih =>
    cases l with
    | nil =>
      constructor
      · intro h; simp [startsWith] at h
      · intro h; simp at h
    | cons c cs =>
      rw [show startsWith (a :: ps) (c :: cs) = (a == c && startsWith ps cs) from rfl]
      simp [List.cons_prefix_cons, ih]

theorem startsWith_eq_false {p l : List Char} : startsWith p l = false ↔ ¬ p <+: l := by
  rw [← startsWith_iff]
  cases startsWith p l <;> simp

theorem pr_total {l₁ l₂ l₃ : List Char} (h1 : l₁ <+: l₃) (h2 : l₂ <+: l₃) :
    l₁ <+: l₂ ∨ l₂ <+: l₁ :=
  List.prefix_or_prefix_of_prefix h1 h2

theorem pr_shorter {l₁ l₂ l₃ : List Char} (h1 : l₁ <+: l₃) (h2 : l₂ <+: l₃)
    (hl : l₁.length ≤ l₂.length) : l₁ <+: l₂ := by
  rcases pr_total h1 h2 with h | h
  · exact h
  · have := h.length_le
    have : l₁.length = l₂.length := le_antisymm hl this
    exact (h.eq_of_length (this.symm)) ▸ List.prefix_refl _

theorem occursB_cons {pat : List Char} {c : Char} {rest : List Char} :
    occursB pat (c :: rest) = (startsWith pat (c :: rest) || occursB pat rest) := rfl

theorem occursB_of_pr {pat l : List Char} (h : pat <+: l) : occursB pat l = true := by
  cases l with
  | nil =>
    have : pat = [] := List.prefix_nil.mp h
    subst this
    rfl
  | cons c rest =>
    rw [occursB_cons, startsWith_iff.mpr h]
    rfl

theorem occursB_tail {pat : List Char} {c : Char} {rest : List Char}
    (h : occursB pat rest = true) : occursB pat (c :: rest) = true := by
  rw [occursB_cons, h, Bool.or_true]

theorem occursB_append_of {pat u v : List Char}
    (h1 : ∀ i, i < u.length → ¬ pat <+: (u.drop i ++ v))
    (h2 : occursB pat v = false) : occursB pat (u ++ v) = false := by
  induction u with
  | nil => simpa using h2
  | cons a u' ih =>
    rw [List.cons_append, occursB_cons]
    have hs : startsWith pat (a :: (u' ++ v)) = false := by
      rw [startsWith_eq_false]
      have := h1 0 (by simp)
      simpa using this
    rw [hs, Bool.false_or]
    exact ih (fun i hi => by simpa using h1 (i + 1) (by simpa using hi))

/-! Section: Glyph extractor lemmas -/

theorem dropThroughChar_length {stop : Char} :
    ∀ {l r : List Char}, dropThroughChar stop l = some r → r.length < l.length := by
  intro l
  induction l with
  | nil => intro r h; simp [dropThroughChar] at h
  | cons c rest ih =>
    intro r h
    by_cases hc : c = stop
    · simp [dropThroughChar, hc] at h
      subst h
      simp
    · simp [dropThroughChar, hc] at h
      exact Nat.lt_trans (ih h) (by simp)

theorem dropThroughChar_over {stop : Char} :
    ∀ {inner rest : List Char}, stop ∉ inner →
      dropThroughChar stop (inner ++ stop :: rest) = some rest := by
  intro inner
  induction inner with
  | nil => intro rest _; simp [dropThroughChar]
  | cons c inner' ih =>
    intro rest hni
    have hc : ¬ c = stop := by
      intro he
      exact hni (by simp [he])
    simp only [List.cons_append, dropThroughChar, if_neg hc]
    exact ih (fun hm => hni (by simp [hm]))

theorem dropThroughCI_length {pat : List Char} :
    ∀ {l r : List Char}, dropThroughCI pat l = some r → r.length ≤ l.length := by
  intro l
  induction l with
  | nil => intro r h; simp [dropThroughCI] at h
  | cons c rest ih =>
    intro r h
    by_cases hm : matchesCI pat (c :: rest) = true
    · simp [dropThroughCI, hm] at h
      subst h
      simp [List.length_drop]
    · simp [dropThroughCI, hm] at h
      exact Nat.le_trans (ih h) (by simp)

theorem stripTagsAux_stable :
    ∀ (f₁ : Nat) (f₂ : Nat) (l : List Char), l.length ≤ f₁ → l.length ≤ f₂ →
      stripTagsAux f₁ l = stripTagsAux f₂ l := by
  intro f₁
  induction f₁ with
  | zero =>
    intro f₂ l h₁ _
    have : l = [] := List.eq_nil_of_length_eq_zero (Nat.le_zero.mp h₁)
    subst this
    cases f₂ <;> rfl
  | succ f ih =>
    intro f₂ l h₁ h₂
    cases l with
    | nil => cases f₂ <;> rfl
    | cons c rest =>
      cases f₂ with
      | zero => simp at h₂
      | succ g =>
        have hb1 : rest.length ≤ f := by simp at h₁; omega
        have hb2 : rest.length ≤ g := by simp at h₂; omega
        by_cases hc : c = '<'
        · cases hdt : dropThroughChar '>' rest with
          | some rem =>
            have hlt := dropThroughChar_length hdt
            simp only [stripTagsAux, if_pos hc, hdt]
            rw [ih g rem (by omega) (by omega)]
          | none =>
            simp only [stripTagsAux, if_pos hc, hdt]
            rw [ih g rest hb1 hb2]
        · simp only [stripTagsAux, if_neg hc]
          rw [ih g rest hb1 hb2]

theorem stripTags_tag_space {inner rest : List Char} (hni : '>' ∉ inner) :
    stripTags ('<' :: (inner ++ '>' :: rest)) = ' ' :: stripTags rest := by
  show stripTagsAux ('<' :: (inner ++ '>' :: rest)).length ('<' :: (inner ++ '>' :: rest)) = _
  have hlen : ('<' :: (inner ++ '>' :: rest)).length = (inner.length + rest.length + 1) + 1 := by
    simp
    omega
  rw [hlen]
  simp only [stripTagsAux, if_pos rfl, dropThroughChar_over hni]
  rw [stripTagsAux_stable (inner.length + rest.length + 1) rest.length rest (by omega) le_rfl]
  rfl

/-- Claim C6: every character of the visible (stripped, entity-decoded)
text is in the returned glyph list, and the full baseline and extras sets
always are. -/
theorem claim_C6 (html : List Char) :
    (∀ c ∈ extractText html, c ∈ extractCharsFromHTML html) ∧
    (∀ c ∈ baseChars, c ∈ extractCharsFromHTML html) ∧
    (∀ c ∈ extrasChars, c ∈ extractCharsFromHTML html) := by
  refine ⟨?_, ?_, ?_⟩ <;> intro c hc <;>
    rw [show extractCharsFromHTML html =
        List.insertionSort (fun a b => a ≤ b)
          ((extractText html ++ baseChars ++ extrasChars).dedup) from rfl,
      List.mem_insertionSort, List.mem_dedup]
  · exact List.mem_append.mpr (Or.inl (List.mem_append.mpr (Or.inl hc)))
  · exact List.mem_append.mpr (Or.inl (List.mem_append.mpr (Or.inr hc)))
  · exact List.mem_append.mpr (Or.inr hc)

theorem claim_C6_witness :
    'x' ∈ extractText "x<b>y</b>".data ∧ 'x' ∈ extractCharsFromHTML "x<b>y</b>".data :=
  ⟨by decide, (claim_C6 "x<b>y</b>".data).1 'x' (by decide)⟩

/-- Claim C7 counterexample: the source replaces a whole script element by
the EMPTY string, not by whitespace, so the words around it merge: on
`a<script>x</script>b` the visible text is `ab`, a single token, not
`a b`. -/
theorem claim_C7_counterexample :
    extractText "a<script>x</script>b".data = "ab".data ∧
    "ab".data ≠ "a b".data := by
  constructor
  · decide
  · decide

/-- Claim C7 (amended): the extractor strips script content, then style
content, then all remaining tags, but only a remaining tag is replaced by
whitespace (one space), so words separated only by a tag do not merge,
while a whole script or style element is removed with no replacement, so
words separated only by such an element do merge. -/
theorem claim_C7 :
    (∀ inner rest : List Char, '>' ∉ inner →
      stripTags ('<' :: (inner ++ '>' :: rest)) = ' ' :: stripTags rest) ∧
    extractText "a<em>b</em>c".data = "a b c".data ∧
    extractText "a<script>x</script>b".data = "ab".data ∧
    extractText "a<style>x</style>b".data = "ab".data := by
  refine ⟨?_, by decide, by decide, by decide⟩
  intro inner rest hni
  exact stripTags_tag_space hni

theorem claim_C7_witness :
    ('>' ∉ "em class=x".data) ∧
    stripTags ('<' :: ("em class=x".data ++ '>' :: "hi".data)) = ' ' :: stripTags "hi".data :=
  ⟨by decide, claim_C7.1 "em class=x".data "hi".data (by decide)⟩

/-! Section: Range compactor lemmas -/

theorem mem_decodeRanges {x : Nat} :
    ∀ {rs : List (Nat × Nat)}, x ∈ decodeRanges rs ↔ ∃ p ∈ rs, p.1 ≤ x ∧ x ≤ p.2 := by
  intro rs
  induction rs with
  | nil => simp [decodeRanges]
  | cons q rest ih =>
    simp only [decodeRanges, Finset.mem_union, Finset.mem_Icc, ih, List.mem_cons]
    constructor
    · rintro (hq | ⟨p, hp, h1, h2⟩)
      · exact ⟨q, Or.inl rfl, hq⟩
      · exact ⟨p, Or.inr hp, h1, h2⟩
    · rintro ⟨p, hp | hp, h1, h2⟩
      · subst hp; exact Or.inl ⟨h1, h2⟩
      · exact Or.inr ⟨p, hp, h1, h2⟩

theorem mergeRangesAux_decode :
    ∀ (l : List Nat) (start prev : Nat), start ≤ prev → List.Chain (· < ·) prev l →
      decodeRanges (mergeRangesAux start prev l) =
        Finset.Icc start prev ∪ l.toFinset := by
  intro l
  induction l with
  | nil => intro start prev _ _; simp [mergeRangesAux, decodeRanges]
  | cons cp rest ih =>
    intro start prev hsp hch
    rw [List.chain_cons] at hch
    obtain ⟨hlt, hch'⟩ := hch
    by_cases he : cp = prev + 1
    · rw [show mergeRangesAux start prev (cp :: rest) = mergeRangesAux start cp rest from by
        simp [mergeRangesAux, he]]
      rw [ih start cp (by omega) hch']
      ext x
      simp only [Finset.mem_union, Finset.mem_Icc, List.toFinset_cons, Finset.mem_insert,
        List.mem_toFinset]
      by_cases hx : x ∈ rest <;> simp [hx] <;> omega
    · rw [show mergeRangesAux start prev (cp :: rest) =
          (start, prev) :: mergeRangesAux cp cp rest from by simp [mergeRangesAux, he]]
      show Finset.Icc start prev ∪ decodeRanges (mergeRangesAux cp cp rest) = _
      rw [ih cp cp le_rfl hch']
      ext x
      simp only [Finset.mem_union, Finset.mem_Icc, List.toFinset_cons, Finset.mem_insert,
        List.mem_toFinset]
      by_cases hx : x ∈ rest <;> simp [hx] <;> omega

theorem mergeRangesAux_wf :
    ∀ (l : List Nat) (start prev : Nat), start ≤ prev → List.Chain (· < ·) prev l →
      RangesWF (mergeRangesAux start prev l) ∧
        ∀ p ∈ mergeRangesAux start prev l, start ≤ p.1 := by
  intro l
  induction l with
  | nil =>
    intro start prev hsp _
    refine ⟨⟨hsp, by simp, trivial⟩, ?_⟩
    intro p hp
    simp only [mergeRangesAux, List.mem_singleton] at hp
    subst hp
    exact le_rfl
  | cons cp rest ih =>
    intro start prev hsp hch
    rw [List.chain_cons] at hch
    obtain ⟨hlt, hch'⟩ := hch
    by_cases he : cp = prev + 1
    · rw [show mergeRangesAux start prev (cp :: rest) = mergeRangesAux start cp rest from by
        simp [mergeRangesAux, he]]
      exact ih start cp (by omega) hch'
    · rw [show mergeRangesAux start prev (cp :: rest) =
          (start, prev) :: mergeRangesAux cp cp rest from by simp [mergeRangesAux, he]]
      obtain ⟨hwfA, hbA⟩ := ih cp cp le_rfl hch'
      have hcp : prev + 1 < cp := by omega
      refine ⟨⟨hsp, ?_, hwfA⟩, ?_⟩
      · intro q hq
        exact lt_of_lt_of_le hcp (hbA q hq)
      · intro p hp
        rcases List.mem_cons.mp hp with hp | hp
        · subst hp; exact le_rfl
        · have := hbA p hp
          omega

theorem mergeRanges_decode {l : List Nat} (hs : List.Sorted (· < ·) l) :
    decodeRanges (mergeRanges l) = l.toFinset := by
  cases l with
  | nil => simp [mergeRanges, decodeRanges]
  | cons cp rest =>
    have hch : List.Chain (· < ·) cp rest := List.chain_iff_pairwise.mpr hs
    show decodeRanges (mergeRangesAux cp cp rest) = _
    rw [mergeRangesAux_decode rest cp cp le_rfl hch, Finset.Icc_self, List.toFinset_cons,
      Finset.insert_eq]

theorem mergeRanges_wf {l : List Nat} (hs : List.Sorted (· < ·) l) :
    RangesWF (mergeRanges l) := by
  cases l with
  | nil => trivial
  | cons cp rest =>
    have hch : List.Chain (· < ·) cp rest := List.chain_iff_pairwise.mpr hs
    exact (mergeRangesAux_wf rest cp cp le_rfl hch).1

theorem runStarts_decode_wf :
    ∀ rs : List (Nat × Nat), RangesWF rs →
      (runStarts (decodeRanges rs)).card = rs.length := by
  intro rs
  induction rs with
  | nil => intro _; simp [decodeRanges, runStarts]
  | cons q rest ih =>
    intro hwf
    obtain ⟨hab, hgap, hwf'⟩ := hwf
    have hbound : ∀ x ∈ decodeRanges rest, q.2 + 1 < x := by
      intro x hx
      obtain ⟨p, hp, h1, h2⟩ := mem_decodeRanges.mp hx
      exact lt_of_lt_of_le (hgap p hp) h1
    have key : runStarts (decodeRanges (q :: rest)) =
        insert q.1 (runStarts (decodeRanges rest)) := by
      show runStarts (Finset.Icc q.1 q.2 ∪ decodeRanges rest) = _
      ext x
      simp only [runStarts, Finset.mem_filter, Finset.mem_union, Finset.mem_Icc,
        Finset.mem_insert]
      constructor
      · rintro ⟨hmem, hstart⟩
        rcases hmem with ⟨hax, hxb⟩ | hxt
        · rcases hstart with h0 | hns
          · left; omega
          · by_cases hxa : x = q.1
            · exact Or.inl hxa
            · exfalso; exact hns (Or.inl ⟨by omega, by omega⟩)
        · have hbx := hbound x hxt
          refine Or.inr ⟨hxt, ?_⟩
          rcases hstart with h0 | hns
          · exact Or.inl h0
          · exact Or.inr fun h1t => hns (Or.inr h1t)
      · rintro (rfl | ⟨hxt, hstart⟩)
        · refine ⟨Or.inl ⟨le_rfl, hab⟩, ?_⟩
          by_cases ha0 : q.1 = 0
          · exact Or.inl ha0
          · refine Or.inr ?_
            rintro (⟨h1, h2⟩ | h1t)
            · omega
            · have := hbound _ h1t; omega
        · have hbx := hbound x hxt
          refine ⟨Or.inr hxt, ?_⟩
          rcases hstart with h0 | hx1nt
          · exact Or.inl h0
          · refine Or.inr ?_
            rintro (⟨h1, h2⟩ | h1t)
            · omega
            · exact hx1nt h1t
    rw [key, Finset.card_insert_of_not_mem, ih hwf']
    · simp
    · intro hmem
      have := hbound q.1 (Finset.mem_of_mem_filter _ hmem)
      omega

theorem runStarts_card_le :
    ∀ rs : List (Nat × Nat), (runStarts (decodeRanges rs)).card ≤ rs.length := by
  intro rs
  induction rs with
  | nil => simp [decodeRanges, runStarts]
  | cons q rest ih =>
    have hsub : runStarts (decodeRanges (q :: rest)) ⊆
        insert q.1 (runStarts (decodeRanges rest)) := by
      intro x hx
      simp only [runStarts, Finset.mem_filter, Finset.mem_insert] at hx ⊢
      obtain ⟨hmem, hstart⟩ := hx
      rw [show decodeRanges (q :: rest) = Finset.Icc q.1 q.2 ∪ decodeRanges rest from rfl,
        Finset.mem_union] at hmem
      by_cases hxt : x ∈ decodeRanges rest
      · refine Or.inr ⟨hxt, ?_⟩
        rcases hstart with h0 | hns
        · exact Or.inl h0
        · refine Or.inr fun h1t => hns ?_
          rw [show decodeRanges (q :: rest) = Finset.Icc q.1 q.2 ∪ decodeRanges rest from rfl,
            Finset.mem_union]
          exact Or.inr h1t
      · rcases hmem with hmem | hmem
        · rw [Finset.mem_Icc] at hmem
          left
          rcases hstart with h0 | hns
          · omega
          · by_contra hxa
            refine hns ?_
            rw [show decodeRanges (q :: rest) = Finset.Icc q.1 q.2 ∪ decodeRanges rest from rfl,
              Finset.mem_union, Finset.mem_Icc]
            exact Or.inl ⟨by omega, by omega⟩
        · exact absurd hmem hxt
    calc (runStarts (decodeRanges (q :: rest))).card
        ≤ (insert q.1 (runStarts (decodeRanges rest))).card := Finset.card_le_card hsub
      _ ≤ (runStarts (decodeRanges rest)).card + 1 := Finset.card_insert_le _ _
      _ ≤ rest.length + 1 := by omega

theorem sortCps_sorted_lt {cps : List Nat} (h : cps.Nodup) :
    List.Sorted (· < ·) (List.insertionSort (fun a b => a ≤ b) cps) := by
  have hperm := List.perm_insertionSort (fun a b : Nat => a ≤ b) cps
  have hnd : (List.insertionSort (fun a b : Nat => a ≤ b) cps).Nodup :=
    hperm.nodup_iff.mpr h
  have hsle : List.Sorted (fun a b : Nat => a ≤ b)
      (List.insertionSort (fun a b : Nat => a ≤ b) cps) :=
    List.sorted_insertionSort _ cps
  exact List.Sorted.lt_of_le hsle hnd

/-- Claim C1: for a duplicate-free codepoint list, the compacted
specification decodes back to exactly the input set (round trip), the
token list is in bijection with the merged intervals, and no interval list
with the same decoded set has fewer intervals, i.e. the token count is
minimal. -/
theorem claim_C1 (cps : List Nat) (hnd : cps.Nodup) :
    decodeRanges (unicodeRanges cps) = cps.toFinset ∧
    (unicodeTokens cps).length = (unicodeRanges cps).length ∧
    ∀ rs : List (Nat × Nat), decodeRanges rs = cps.toFinset →
      (unicodeRanges cps).length ≤ rs.length := by
  have hsort := sortCps_sorted_lt hnd
  have hperm := List.perm_insertionSort (fun a b : Nat => a ≤ b) cps
  have h1 : decodeRanges (unicodeRanges cps) = cps.toFinset := by
    rw [show unicodeRanges cps = mergeRanges (List.insertionSort (fun a b => a ≤ b) cps)
      from rfl, mergeRanges_decode hsort]
    exact List.toFinset_eq_of_perm _ _ hperm
  refine ⟨h1, by simp [unicodeTokens], ?_⟩
  intro rs hrs
  have hcnt : (runStarts (decodeRanges (unicodeRanges cps))).card = (unicodeRanges cps).length :=
    runStarts_decode_wf _ (mergeRanges_wf hsort)
  rw [h1] at hcnt
  calc (unicodeRanges cps).length = (runStarts (decodeRanges rs)).card := by rw [hrs, hcnt]
    _ ≤ rs.length := runStarts_card_le rs

theorem claim_C1_witness :
    ([65, 66, 67, 69, 100] : List Nat).Nodup ∧
    decodeRanges (unicodeRanges [65, 66, 67, 69, 100]) =
      ([65, 66, 67, 69, 100] : List Nat).toFinset :=
  ⟨by decide, (claim_C1 [65, 66, 67, 69, 100] (by decide)).1⟩

/-! Section: Hexadecimal serialization lemmas -/

theorem hexDigitChar_mem (n : Nat) : hexDigitChar n ∈ "0123456789ABCDEF".data := by
  by_cases h : n < 16
  · interval_cases n <;> decide
  · have hlen : ("0123456789ABCDEF".data).length ≤ n := by
      simp only [not_lt] at h
      calc ("0123456789ABCDEF".data).length = 16 := by decide
        _ ≤ n := h
    rw [show hexDigitChar n = "0123456789ABCDEF".data.getD n '0' from rfl,
      List.getD_eq_default _ _ hlen]
    decide

theorem hexDigitVal_hexDigitChar {n : Nat} (h : n < 16) :
    hexDigitVal (hexDigitChar n) = n := by
  interval_cases n <;> decide

theorem hexVal_append_digit (xs : List Char) (d : Char) :
    hexVal (xs ++ [d]) = 16 * hexVal xs + hexDigitVal d := by
  rw [hexVal, List.foldl_append]
  rfl

theorem toHexAux_stable :
    ∀ (f₁ f₂ n : Nat), 1 ≤ f₁ → 1 ≤ f₂ → n < 16 ^ f₁ → n < 16 ^ f₂ →
      toHexAux f₁ n = toHexAux f₂ n := by
  intro f₁
  induction f₁ with
  | zero => intro f₂ n h1; omega
  | succ g ih =>
    intro f₂ n _ h2 hb1 hb2
    cases f₂ with
    | zero => omega
    | succ g₂ =>
      by_cases hn : n < 16
      · simp [toHexAux, hn]
      · have hg : 1 ≤ g := by
          by_contra hg0
          have : g = 0 := by omega
          subst this
          simp at hb1
          omega
        have hg₂ : 1 ≤ g₂ := by
          by_contra hg0
          have : g₂ = 0 := by omega
          subst this
          simp at hb2
          omega
        have hd1 : n / 16 < 16 ^ g := by
          rw [Nat.div_lt_iff_lt_mul (by norm_num)]
          calc n < 16 ^ (g + 1) := hb1
            _ = 16 ^ g * 16 := by ring
        have hd2 : n / 16 < 16 ^ g₂ := by
          rw [Nat.div_lt_iff_lt_mul (by norm_num)]
          calc n < 16 ^ (g₂ + 1) := hb2
            _ = 16 ^ g₂ * 16 := by ring
        simp only [toHexAux, if_neg hn]
        rw [ih g₂ (n / 16) hg hg₂ hd1 hd2]

theorem hexVal_toHexAux :
    ∀ (f n : Nat), n < 16 ^ f → hexVal (toHexAux f n) = n := by
  intro f
  induction f with
  | zero =>
    intro n h
    simp at h
    subst h
    rfl
  | succ g ih =>
    intro n hb
    by_cases hn : n < 16
    · simp only [toHexAux, if_pos hn]
      show 16 * 0 + hexDigitVal (hexDigitChar n) = n
      rw [hexDigitVal_hexDigitChar hn]
      omega
    · have hd : n / 16 < 16 ^ g := by
        rw [Nat.div_lt_iff_lt_mul (by norm_num)]
        calc n < 16 ^ (g + 1) := hb
          _ = 16 ^ g * 16 := by ring
      simp only [toHexAux, if_neg hn]
      rw [hexVal_append_digit, ih (n / 16) hd, hexDigitVal_hexDigitChar (Nat.mod_lt n (by norm_num))]
      have := Nat.div_add_mod n 16
      omega

theorem toHexAux_len_le :
    ∀ (f n : Nat), n < 16 ^ f → (toHexAux f n).length ≤ f := by
  intro f
  induction f with
  | zero => intro n _; simp [toHexAux]
  | succ g ih =>
    intro n hb
    by_cases hn : n < 16
    · simp [toHexAux, hn]
    · have hd : n / 16 < 16 ^ g := by
        rw [Nat.div_lt_iff_lt_mul (by norm_num)]
        calc n < 16 ^ (g + 1) := hb
          _ = 16 ^ g * 16 := by ring
      simp only [toHexAux, if_neg hn, List.length_append, List.length_singleton]
      have := ih (n / 16) hd
      omega

theorem toHexAux_len_ge :
    ∀ (f k n : Nat), n < 16 ^ f → 16 ^ k ≤ n → k + 1 ≤ (toHexAux f n).length := by
  intro f
  induction f with
  | zero =>
    intro k n h hk
    have : 1 ≤ 16 ^ k := Nat.one_le_pow _ _ (by norm_num)
    omega
  | succ g ih =>
    intro k n hb hk
    by_cases hn : n < 16
    · have hk0 : k = 0 := by
        by_contra hk1
        have : 16 ≤ 16 ^ k := by
          calc (16 : Nat) = 16 ^ 1 := by norm_num
            _ ≤ 16 ^ k := Nat.pow_le_pow_right (by norm_num) (by omega)
        omega
      subst hk0
      simp [toHexAux, hn]
    · simp only [toHexAux, if_neg hn, List.length_append, List.length_singleton]
      cases k with
      | zero => omega
      | succ k' =>
        have hd : n / 16 < 16 ^ g := by
          rw [Nat.div_lt_iff_lt_mul (by norm_num)]
          calc n < 16 ^ (g + 1) := hb
            _ = 16 ^ g * 16 := by ring
        have hk' : 16 ^ k' ≤ n / 16 := by
          rw [Nat.le_div_iff_mul_le (by norm_num)]
          calc 16 ^ k' * 16 = 16 ^ (k' + 1) := by ring
            _ ≤ n := hk
        have := ih k' (n / 16) hd hk'
        omega

theorem toHexAux_mem :
    ∀ (f n : Nat) (c : Char), c ∈ toHexAux f n → c ∈ "0123456789ABCDEF".data := by
  intro f
  induction f with
  | zero => intro n c h; simp [toHexAux] at h
  | succ g ih =>
    intro n c h
    by_cases hn : n < 16
    · simp only [toHexAux, if_pos hn, List.mem_singleton] at h
      subst h
      exact hexDigitChar_mem n
    · simp only [toHexAux, if_neg hn, List.mem_append, List.mem_singleton] at h
      rcases h with h | h
      · exact ih _ _ h
      · subst h
        exact hexDigitChar_mem _

theorem lt_pow_sixteen (n : Nat) : n < 16 ^ (n + 1) :=
  lt_of_lt_of_le (Nat.lt_pow_self (by norm_num) n)
    (Nat.pow_le_pow_right (by norm_num) (by omega))

theorem toHexChars_val (n : Nat) : hexVal (toHexChars n) = n :=
  hexVal_toHexAux (n + 1) n (lt_pow_sixteen n)

theorem toHexChars_len_le {k n : Nat} (hk : 1 ≤ k) (h : n < 16 ^ k) :
    (toHexChars n).length ≤ k := by
  rw [toHexChars, toHexAux_stable (n + 1) k n (by omega) hk (lt_pow_sixteen n) h]
  exact toHexAux_len_le k n h

theorem toHexChars_len_ge {k n : Nat} (h : 16 ^ k ≤ n) :
    k + 1 ≤ (toHexChars n).length :=
  toHexAux_len_ge (n + 1) k n (lt_pow_sixteen n) h

theorem hexVal_zeros_append (m : Nat) (s : List Char) :
    hexVal (List.replicate m '0' ++ s) = hexVal s := by
  have hz : ∀ m : Nat, List.foldl (fun a c => 16 * a + hexDigitVal c) 0
      (List.replicate m '0') = 0 := by
    intro m
    induction m with
    | zero => rfl
    | succ k ih =>
      rw [List.replicate_succ, List.foldl_cons]
      show List.foldl _ (16 * 0 + hexDigitVal '0') _ = 0
      have : 16 * 0 + hexDigitVal '0' = 0 := by decide
      rw [this, ih]
  rw [hexVal, List.foldl_append, hz m]
  rfl

theorem fmtCp_len (cp : Nat) : (fmtCp cp).length = max 4 (toHexChars cp).length := by
  simp only [fmtCp, List.length_append, List.length_replicate]
  omega

/-- Claim C8: tokens are `U+XXXX` / `U+XXXX-YYYY` with uppercase
hexadecimal rendering, zero-padded to at least four digits and
automatically wider beyond `0xFFFF`; the concrete example of the
specification serializes as stated, and `0x1F600` renders with five hex
digits. -/
theorem claim_C8 :
    charsToUnicodeArg "ABCEd".data = "U+0041-0043,U+0045,U+0064".data ∧
    fmtCp 0x1F600 = "1F600".data ∧
    (∀ cp : Nat,
      hexVal (fmtCp cp) = cp ∧
      4 ≤ (fmtCp cp).length ∧
      (∀ c ∈ fmtCp cp, c ∈ "0123456789ABCDEF".data) ∧
      (cp ≤ 0xFFFF → (fmtCp cp).length = 4) ∧
      (0xFFFF < cp → fmtCp cp = toHexChars cp ∧ 5 ≤ (fmtCp cp).length)) := by
  refine ⟨by decide, by decide, ?_⟩
  intro cp
  refine ⟨?_, ?_, ?_, ?_, ?_⟩
  · rw [fmtCp, hexVal_zeros_append]
    exact toHexChars_val cp
  · rw [fmtCp_len]
    omega
  · intro c hc
    rw [fmtCp, List.mem_append] at hc
    rcases hc with hc | hc
    · have := List.eq_of_mem_replicate hc
      subst this
      decide
    · exact toHexAux_mem _ _ _ hc
  · intro hcp
    have hle : (toHexChars cp).length ≤ 4 :=
      toHexChars_len_le (by norm_num) (by norm_num; omega)
    rw [fmtCp_len]
    omega
  · intro hcp
    have hge : 4 + 1 ≤ (toHexChars cp).length := toHexChars_len_ge (by norm_num; omega)
    constructor
    · rw [fmtCp, show 4 - (toHexChars cp).length = 0 from by omega]
      rfl
    · rw [fmtCp_len]
      omega

theorem claim_C8_witness :
    (0xE9 ≤ 0xFFFF) ∧ (fmtCp 0xE9).length = 4 :=
  ⟨by decide, ((claim_C8.2.2 0xE9).2.2.2.1) (by decide)⟩

/-! Section: Filesystem lemmas -/

theorem fsLookup_write_self (fs : FS) (p c : List Char) :
    fsLookup (fsWrite fs p c) p = some c := by
  simp [fsLookup, fsWrite]

theorem fsLookup_write_ne (fs : FS) (p c : List Char) {q : List Char} (h : q ≠ p) :
    fsLookup (fsWrite fs p c) q = fsLookup fs q := by
  have : ¬ (p = q) := fun he => h he.symm
  simp [fsLookup, fsWrite, this]

theorem fsLookup_erase_self (fs : FS) (p : List Char) :
    fsLookup (fsErase fs p) p = none := by
  induction fs with
  | nil => rfl
  | cons e fs ih =>
    by_cases he : e.1 = p
    · simpa [fsErase, he] using ih
    · simpa [fsErase, fsLookup, he] using ih

theorem exists_false_lookup_none {fs : FS} {p : List Char}
    (h : existsSync fs p = false) : fsLookup fs p = none := by
  cases hl : fsLookup fs p with
  | none => rfl
  | some c =>
    rw [existsSync, hl] at h
    simp at h

theorem fsCount_zero_of_not_exists {fs : FS} {p : List Char}
    (h : existsSync fs p = false) : fsCount fs p = 0 := by
  induction fs with
  | nil => rfl
  | cons e fs ih =>
    by_cases he : e.1 = p
    · exfalso
      rw [existsSync, fsLookup, if_pos he] at h
      simp at h
    · rw [existsSync, fsLookup, if_neg he] at h
      simp only [fsCount, if_neg he]
      exact ih h

/-- Claim C4: `ensureCopyWithHash` never overwrites an existing artifact,
is idempotent, creates at most one artifact per (base path, digest) pair,
and the hashed name preserves the base name, embedded spaces included. -/
theorem claim_C4 (fs : FS) (file hash : List Char) :
    (existsSync fs (hashedPath file hash) = true → ensureCopyWithHash fs file hash = fs) ∧
    ensureCopyWithHash (ensureCopyWithHash fs file hash) file hash =
      ensureCopyWithHash fs file hash ∧
    fsCount (ensureCopyWithHash fs file hash) (hashedPath file hash) ≤
      max 1 (fsCount fs (hashedPath file hash)) ∧
    hashedPath fontRegSrc "abc123def0".data =
      "fonts/Cormorant Variable Font.abc123def0.woff2".data := by
  refine ⟨?_, ?_, ?_, by decide⟩
  · intro h
    simp [ensureCopyWithHash, h]
  · by_cases hex : existsSync fs (hashedPath file hash) = true
    · simp [ensureCopyWithHash, hex]
    · have hex' : existsSync fs (hashedPath file hash) = false := by simp_all
      cases hsrc : fsLookup fs file with
      | none => simp [ensureCopyWithHash, hex', hsrc]
      | some content =>
        have h1 : ensureCopyWithHash fs file hash =
            fsWrite fs (hashedPath file hash) content := by
          simp [ensureCopyWithHash, hex', hsrc]
        rw [h1]
        have h2 : existsSync (fsWrite fs (hashedPath file hash) content)
            (hashedPath file hash) = true := by
          rw [existsSync, fsLookup_write_self]
          rfl
        simp [ensureCopyWithHash, h2]
  · by_cases hex : existsSync fs (hashedPath file hash) = true
    · simp only [ensureCopyWithHash, hex, if_pos]
      exact le_max_right _ _
    · have hex' : existsSync fs (hashedPath file hash) = false := by simp_all
      have hcnt := fsCount_zero_of_not_exists hex'
      cases hsrc : fsLookup fs file with
      | none =>
        have h1 : ensureCopyWithHash fs file hash = fs := by
          simp [ensureCopyWithHash, hex', hsrc]
        rw [h1]
        omega
      | some content =>
        have h1 : ensureCopyWithHash fs file hash =
            fsWrite fs (hashedPath file hash) content := by
          simp [ensureCopyWithHash, hex', hsrc]
        rw [h1]
        have : fsCount (fsWrite fs (hashedPath file hash) content) (hashedPath file hash) =
            fsCount fs (hashedPath file hash) + 1 := by
          simp [fsCount, fsWrite]
        omega

theorem claim_C4_witness :
    existsSync [(hashedPath cssSrc "aaaaaaaaaa".data, ([] : List Char))]
      (hashedPath cssSrc "aaaaaaaaaa".data) = true ∧
    ensureCopyWithHash [(hashedPath cssSrc "aaaaaaaaaa".data, ([] : List Char))]
      cssSrc "aaaaaaaaaa".data =
      [(hashedPath cssSrc "aaaaaaaaaa".data, ([] : List Char))] :=
  ⟨by decide, (claim_C4 _ _ _).1 (by decide)⟩

theorem outTmp_ne (src : List Char) : src ≠ outTmpPath src := by
  intro h
  have hlen := congrArg List.length h
  rw [outTmpPath, List.length_append] at hlen
  have : (".subset.tmp.woff2".data).length = 17 := by decide
  omega

/-- Claim C5: subsetting is successful exactly when the external process
exits 0 and its declared output exists; on success the original font path
is replaced by the output (rename over original, output gone); on failure
the filesystem, hence the original font file, is untouched. -/
theorem claim_C5 (fsAfter : FS) (src : List Char) (status : Int) :
    ((subsetOneFont fsAfter src status).2 = true ↔
      status = 0 ∧ existsSync fsAfter (outTmpPath src) = true) ∧
    ((subsetOneFont fsAfter src status).2 = false →
      (subsetOneFont fsAfter src status).1 = fsAfter) ∧
    (status = 0 → existsSync fsAfter (outTmpPath src) = true →
      fsLookup (subsetOneFont fsAfter src status).1 src =
        fsLookup fsAfter (outTmpPath src) ∧
      fsLookup (subsetOneFont fsAfter src status).1 (outTmpPath src) = none) := by
  by_cases hfail : status ≠ 0 ∨ existsSync fsAfter (outTmpPath src) = false
  · have hres : subsetOneFont fsAfter src status = (fsAfter, false) := by
      simp only [subsetOneFont, if_pos hfail]
    rw [hres]
    refine ⟨?_, fun _ => rfl, ?_⟩
    · simp only [Bool.false_eq_true, false_iff]
      rintro ⟨h0, hex⟩
      rcases hfail with h | h
      · exact h h0
      · rw [hex] at h; simp at h
    · intro h0 hex
      exfalso
      rcases hfail with h | h
      · exact h h0
      · rw [hex] at h; simp at h
  · have h0 : status = 0 := by
      by_contra hs
      exact hfail (Or.inl hs)
    have hex' : existsSync fsAfter (outTmpPath src) = true := by
      cases hb : existsSync fsAfter (outTmpPath src)
      · exact absurd (Or.inr hb) hfail
      · rfl
    have hres : subsetOneFont fsAfter src status =
        (fsRename fsAfter (outTmpPath src) src, true) := by
      simp only [subsetOneFont, if_neg hfail]
    rw [hres]
    refine ⟨by simp [h0, hex'], by simp, ?_⟩
    intro _ _
    obtain ⟨c, hc⟩ : ∃ c, fsLookup fsAfter (outTmpPath src) = some c := by
      rw [existsSync] at hex'
      cases hl : fsLookup fsAfter (outTmpPath src) with
      | none => rw [hl] at hex'; simp at hex'
      | some c => exact ⟨c, rfl⟩
    have hne : outTmpPath src ≠ src := (outTmp_ne src).symm
    constructor
    · rw [hc, fsRename, hc, fsLookup_write_self]
    · rw [fsRename, hc, fsLookup_write_ne _ _ _ hne, fsLookup_erase_self]

theorem claim_C5_witness :
    existsSync [(outTmpPath "f".data, "new".data)] (outTmpPath "f".data) = true ∧
    fsLookup (subsetOneFont [(outTmpPath "f".data, "new".data)] "f".data 0).1 "f".data =
      fsLookup [(outTmpPath "f".data, "new".data)] (outTmpPath "f".data) :=
  ⟨by decide, ((claim_C5 [(outTmpPath "f".data, "new".data)] "f".data 0).2.2 rfl (by decide)).1⟩

/-! Section: Fingerprint step (`main`) lemmas -/

theorem ensure_lookup_ne {fs : FS} {file hash q : List Char}
    (h : q ≠ hashedPath file hash) :
    fsLookup (ensureCopyWithHash fs file hash) q = fsLookup fs q := by
  by_cases hex : existsSync fs (hashedPath file hash) = true
  · simp [ensureCopyWithHash, hex]
  · have hex' : existsSync fs (hashedPath file hash) = false := by simp_all
    cases hsrc : fsLookup fs file with
    | none => simp [ensureCopyWithHash, hex', hsrc]
    | some content =>
      have h1 : ensureCopyWithHash fs file hash =
          fsWrite fs (hashedPath file hash) content := by
        simp [ensureCopyWithHash, hex', hsrc]
      rw [h1, fsLookup_write_ne _ _ _ h]

theorem ensure_exists_mono {fs : FS} {file hash q : List Char}
    (h : existsSync fs q = true) :
    existsSync (ensureCopyWithHash fs file hash) q = true := by
  by_cases hq : q = hashedPath file hash
  · subst hq
    by_cases hex : existsSync fs (hashedPath file hash) = true
    · simp [ensureCopyWithHash, hex]
    · exact absurd h (by simp_all)
  · rw [existsSync, ensure_lookup_ne hq]
    exact h

theorem ensure_exists_self {fs : FS} {file hash : List Char}
    (h : existsSync fs file = true) :
    existsSync (ensureCopyWithHash fs file hash) (hashedPath file hash) = true := by
  by_cases hex : existsSync fs (hashedPath file hash) = true
  · simp [ensureCopyWithHash, hex]
  · have hex' : existsSync fs (hashedPath file hash) = false := by simp_all
    obtain ⟨content, hc⟩ : ∃ c, fsLookup fs file = some c := by
      rw [existsSync] at h
      cases hl : fsLookup fs file with
      | none => rw [hl] at h; simp at h
      | some c => exact ⟨c, rfl⟩
    have h1 : ensureCopyWithHash fs file hash =
        fsWrite fs (hashedPath file hash) content := by
      simp [ensureCopyWithHash, hex', hc]
    rw [h1, existsSync, fsLookup_write_self]
    rfl

theorem hashedPath_css_ne_index (h : List Char) : hashedPath cssSrc h ≠ indexSrc := by
  intro he
  have hh := congrArg List.headI he
  rw [show (hashedPath cssSrc h).headI = 'a' from rfl] at hh
  exact absurd hh (by decide)

theorem hashedPath_fontReg_ne_index (h : List Char) : hashedPath fontRegSrc h ≠ indexSrc := by
  intro he
  have hh := congrArg List.headI he
  rw [show (hashedPath fontRegSrc h).headI = 'f' from rfl] at hh
  exact absurd hh (by decide)

theorem hashedPath_fontIta_ne_index (h : List Char) : hashedPath fontItaSrc h ≠ indexSrc := by
  intro he
  have hh := congrArg List.headI he
  rw [show (hashedPath fontItaSrc h).headI = 'f' from rfl] at hh
  exact absurd hh (by decide)

theorem fold_ensure_lookup_index (fs0 : FS) :
    ∀ (files : List (List Char)) (fs : FS),
      (∀ f ∈ files, ∀ h, hashedPath f h ≠ indexSrc) →
      fsLookup (files.foldl (fun fs f => ensureCopyWithHash fs f (digestOf fs0 f)) fs)
        indexSrc = fsLookup fs indexSrc := by
  intro files
  induction files with
  | nil => intro fs _; rfl
  | cons f files ih =>
    intro fs hne
    rw [List.foldl_cons, ih _ (fun g hg => hne g (List.mem_cons_of_mem f hg))]
    exact ensure_lookup_ne (Ne.symm (hne f (List.mem_cons_self f files) _))

theorem fold_ensure_exists_mono (fs0 : FS) :
    ∀ (files : List (List Char)) (fs : FS) (q : List Char),
      existsSync fs q = true →
      existsSync (files.foldl (fun fs f => ensureCopyWithHash fs f (digestOf fs0 f)) fs)
        q = true := by
  intro files
  induction files with
  | nil => intro fs q h; exact h
  | cons f files ih =>
    intro fs q h
    rw [List.foldl_cons]
    exact ih _ _ (ensure_exists_mono h)

theorem filter_ne_index (fs0 : FS) :
    ∀ f ∈ [cssSrc, fontRegSrc, fontItaSrc].filter (fun f => existsSync fs0 f),
      ∀ h : List Char, hashedPath f h ≠ indexSrc := by
  intro f hf h
  have hmem := List.mem_of_mem_filter hf
  rcases List.mem_cons.mp hmem with rfl | hmem
  · exact hashedPath_css_ne_index h
  · rcases List.mem_cons.mp hmem with rfl | hmem
    · exact hashedPath_fontReg_ne_index h
    · rcases List.mem_cons.mp hmem with rfl | hmem
      · exact hashedPath_fontIta_ne_index h
      · exact absurd hmem (List.not_mem_nil f)

/-- Claim C9: whenever the fingerprint step catches an error (a missing
`index.html` read, or a failed final write, modelled all-or-nothing), the
HTML document on disk is byte-for-byte what it was before the step, and
the step always exits 0. -/
theorem claim_C9 (fs0 : FS) (skip wf : Bool) :
    ((mainModel fs0 skip wf).errored = true →
      fsLookup (mainModel fs0 skip wf).fs indexSrc = fsLookup fs0 indexSrc) ∧
    (mainModel fs0 skip wf).exitCode = 0 := by
  cases skip with
  | true => simp [mainModel]
  | false =>
    by_cases hemp : ([cssSrc, fontRegSrc, fontItaSrc].filter
        (fun f => existsSync fs0 f)).isEmpty = true
    · simp [mainModel, hemp]
    · have hemp' : ([cssSrc, fontRegSrc, fontItaSrc].filter
          (fun f => existsSync fs0 f)).isEmpty = false := by simp_all
      have hfold := fold_ensure_lookup_index fs0
        ([cssSrc, fontRegSrc, fontItaSrc].filter (fun f => existsSync fs0 f))
        fs0 (filter_ne_index fs0)
      cases hlook : fsLookup
          (([cssSrc, fontRegSrc, fontItaSrc].filter (fun f => existsSync fs0 f)).foldl
            (fun fs f => ensureCopyWithHash fs f (digestOf fs0 f)) fs0) indexSrc with
      | none =>
        have hres : mainModel fs0 false wf =
            ⟨([cssSrc, fontRegSrc, fontItaSrc].filter (fun f => existsSync fs0 f)).foldl
              (fun fs f => ensureCopyWithHash fs f (digestOf fs0 f)) fs0, true, 0⟩ := by
          simp only [mainModel, Bool.false_eq_true, if_neg, hemp', hlook]
          rfl
        rw [hres]
        exact ⟨fun _ => by rw [← hfold, hlook], rfl⟩
      | some html0 =>
        by_cases hcss : existsSync fs0 cssSrc = false
        · have hres : mainModel fs0 false wf =
              ⟨([cssSrc, fontRegSrc, fontItaSrc].filter (fun f => existsSync fs0 f)).foldl
                (fun fs f => ensureCopyWithHash fs f (digestOf fs0 f)) fs0, true, 0⟩ := by
            simp only [mainModel, Bool.false_eq_true, if_neg, hemp', hlook, hcss]
            rfl
          rw [hres]
          exact ⟨fun _ => by rw [← hfold, hlook], rfl⟩
        · have hcss' : (existsSync fs0 cssSrc = false) = False := by simp_all
          cases wf with
          | true =>
            have hres : mainModel fs0 false true =
                ⟨([cssSrc, fontRegSrc, fontItaSrc].filter (fun f => existsSync fs0 f)).foldl
                  (fun fs f => ensureCopyWithHash fs f (digestOf fs0 f)) fs0, true, 0⟩ := by
              simp only [mainModel, Bool.false_eq_true, if_neg, hemp', hlook, hcss']
              rfl
            rw [hres]
            exact ⟨fun _ => by rw [← hfold, hlook], rfl⟩
          | false =>
            have hres : (mainModel fs0 false false).errored = false ∧
                (mainModel fs0 false false).exitCode = 0 := by
              simp only [mainModel, Bool.false_eq_true, if_neg, hemp', hlook, hcss']
              exact ⟨rfl, rfl⟩
            exact ⟨fun he => absurd (hres.1 ▸ he) (by simp), hres.2⟩

theorem claim_C9_witness :
    (mainModel [(cssSrc, "body".data)] false false).errored = true ∧
    fsLookup (mainModel [(cssSrc, "body".data)] false false).fs indexSrc =
      fsLookup [(cssSrc, "body".data)] indexSrc ∧
    (mainModel [(cssSrc, "body".data)] false false).exitCode = 0 :=
  ⟨by decide,
   (claim_C9 [(cssSrc, "body".data)] false false).1 (by decide),
   (claim_C9 [(cssSrc, "body".data)] false false).2⟩

/-- Claim C10 (implicit): the catch-all does not roll back side effects.
When the assets exist but `index.html` is missing, the step errors after
the hashed artifact copies were made, still exits 0, and the artifact for
the stylesheet remains on disk. -/
theorem claim_C10 (fs0 : FS) (wf : Bool)
    (hcss : existsSync fs0 cssSrc = true)
    (hidx : existsSync fs0 indexSrc = false) :
    (mainModel fs0 false wf).errored = true ∧
    existsSync (mainModel fs0 false wf).fs
      (hashedPath cssSrc (digestOf fs0 cssSrc)) = true ∧
    (mainModel fs0 false wf).exitCode = 0 := by
  have hfilter : [cssSrc, fontRegSrc, fontItaSrc].filter (fun f => existsSync fs0 f) =
      cssSrc :: ([fontRegSrc, fontItaSrc].filter (fun f => existsSync fs0 f)) := by
    rw [List.filter_cons_of_pos]
    exact hcss
  have hfold := fold_ensure_lookup_index fs0
    ([cssSrc, fontRegSrc, fontItaSrc].filter (fun f => existsSync fs0 f))
    fs0 (filter_ne_index fs0)
  have hlook : fsLookup
      (([cssSrc, fontRegSrc, fontItaSrc].filter (fun f => existsSync fs0 f)).foldl
        (fun fs f => ensureCopyWithHash fs f (digestOf fs0 f)) fs0) indexSrc = none := by
    rw [hfold]
    exact exists_false_lookup_none hidx
  have hemp' : ([cssSrc, fontRegSrc, fontItaSrc].filter
      (fun f => existsSync fs0 f)).isEmpty = false := by
    rw [hfilter]
    rfl
  have hart : existsSync
      (([cssSrc, fontRegSrc, fontItaSrc].filter (fun f => existsSync fs0 f)).foldl
        (fun fs f => ensureCopyWithHash fs f (digestOf fs0 f)) fs0)
      (hashedPath cssSrc (digestOf fs0 cssSrc)) = true := by
    rw [hfilter, List.foldl_cons]
    exact fold_ensure_exists_mono fs0 _ _ _ (ensure_exists_self hcss)
  have hres : mainModel fs0 false wf =
      ⟨([cssSrc, fontRegSrc, fontItaSrc].filter (fun f => existsSync fs0 f)).foldl
        (fun fs f => ensureCopyWithHash fs f (digestOf fs0 f)) fs0, true, 0⟩ := by
    simp only [mainModel, Bool.false_eq_true, if_neg, hemp', hlook]
    rfl
  rw [hres]
  exact ⟨rfl, hart, rfl⟩

/-! Section: Rewrite scanner lemmas (`replaceAll` with the asset regex)

Throughout, the asset pattern is `('/' :: Pt)`, the extension
`('.' :: extT)`, and the current replacement
`('/' :: Pt) ++ '.' :: (h ++ '.' :: extT)` with `h` the current digest. -/

theorem takeHex_append_hex :
    ∀ {d : List Char}, (∀ c ∈ d, isHexLower c = true) →
      ∀ r : List Char, takeHex d.length (d ++ r) = some r := by
  intro d
  induction d with
  | nil => intro _ r; rfl
  | cons c d ih =>
    intro hhex r
    have hc : isHexLower c = true := hhex c (by simp)
    rw [show ((c :: d) ++ r) = c :: (d ++ r) from rfl, show (c :: d).length = d.length + 1 from rfl]
    rw [show takeHex (d.length + 1) (c :: (d ++ r)) =
      if isHexLower c then takeHex d.length (d ++ r) else none from rfl]
    rw [if_pos hc]
    exact ih (fun x hx => hhex x (by simp [hx])) r

theorem takeHex_some :
    ∀ (k : Nat) (l r : List Char), takeHex k l = some r →
      ∃ d, l = d ++ r ∧ d.length = k ∧ ∀ c ∈ d, isHexLower c = true := by
  intro k
  induction k with
  | zero =>
    intro l r hk
    rw [show takeHex 0 l = some l from rfl] at hk
    exact ⟨[], by simpa using hk, rfl, by simp⟩
  | succ k ih =>
    intro l r hk
    cases l with
    | nil => exact absurd hk (by simp [takeHex])
    | cons c l' =>
      rw [show takeHex (k + 1) (c :: l') =
        if isHexLower c then takeHex k l' else none from rfl] at hk
      by_cases hc : isHexLower c = true
      · rw [if_pos hc] at hk
        obtain ⟨d, hdl, hdk, hdh⟩ := ih l' r hk
        refine ⟨c :: d, by simp [hdl], by simp [hdk], ?_⟩
        intro x hx
        rcases List.mem_cons.mp hx with rfl | hx
        · exact hc
        · exact hdh x hx
      · rw [if_neg hc] at hk
        exact absurd hk (by simp)

theorem takeHex_none_stop :
    ∀ {d : List Char}, (∀ c ∈ d, isHexLower c = true) →
      ∀ {c0 : Char}, isHexLower c0 = false →
      ∀ {k : Nat}, d.length < k →
      ∀ (z : List Char), takeHex k (d ++ c0 :: z) = none := by
  intro d
  induction d with
  | nil =>
    intro _ c0 hc0 k hk z
    cases k with
    | zero => omega
    | succ k =>
      rw [show takeHex (k + 1) ([] ++ c0 :: z) =
        if isHexLower c0 then takeHex k z else none from rfl, if_neg (by simp [hc0])]
  | cons c d ih =>
    intro hhex c0 hc0 k hk z
    cases k with
    | zero => simp at hk
    | succ k =>
      rw [show ((c :: d) ++ c0 :: z) = c :: (d ++ c0 :: z) from rfl]
      rw [show takeHex (k + 1) (c :: (d ++ c0 :: z)) =
        if isHexLower c then takeHex k (d ++ c0 :: z) else none from rfl]
      rw [if_pos (hhex c (by simp))]
      exact ih (fun x hx => hhex x (by simp [hx])) hc0 (by simp at hk; omega) z

theorem matchGroupK_intro {ext d : List Char} (hhex : ∀ c ∈ d, isHexLower c = true)
    {k : Nat} (hk : d.length = k) (y : List Char) :
    matchGroupK ext ('.' :: (d ++ (ext ++ y))) k = some y := by
  subst hk
  rw [show matchGroupK ext ('.' :: (d ++ (ext ++ y))) d.length =
    (takeHex d.length (d ++ (ext ++ y))).bind (fun r =>
      if startsWith ext r then some (List.drop ext.length r) else none) from by
        rw [show matchGroupK ext ('.' :: (d ++ (ext ++ y))) d.length =
          (if ('.' : Char) = '.' then
            (takeHex d.length (d ++ (ext ++ y))).bind (fun r =>
              if startsWith ext r then some (List.drop ext.length r) else none)
          else none) from rfl, if_pos rfl]]
  rw [takeHex_append_hex hhex, Option.some_bind]
  rw [if_pos (startsWith_iff.mpr (List.prefix_append _ _)), List.drop_left]

theorem matchGroupK_some {ext t : List Char} {k : Nat} {r : List Char}
    (hm : matchGroupK ext t k = some r) :
    ∃ d, t = '.' :: (d ++ (ext ++ r)) ∧ d.length = k ∧ ∀ c ∈ d, isHexLower c = true := by
  cases t with
  | nil => exact absurd hm (by simp [matchGroupK])
  | cons c rest =>
    rw [show matchGroupK ext (c :: rest) k =
      (if c = '.' then
        (takeHex k rest).bind (fun r' =>
          if startsWith ext r' then some (List.drop ext.length r') else none)
      else none) from rfl] at hm
    by_cases hc : c = '.'
    · rw [if_pos hc] at hm
      subst hc
      cases ht : takeHex k rest with
      | none => rw [ht] at hm; exact absurd hm (by simp)
      | some r' =>
        rw [ht, Option.some_bind] at hm
        by_cases hs : startsWith ext r' = true
        · rw [if_pos hs] at hm
          obtain ⟨d, hdl, hdk, hdh⟩ := takeHex_some k rest r' ht
          obtain ⟨w, hw⟩ := startsWith_iff.mp hs
          have hr : r = w := by
            injection hm with hm'
            rw [← hm', ← hw, List.drop_left]
          subst hr
          exact ⟨d, by rw [hdl, ← hw], hdk, hdh⟩
        · rw [if_neg hs] at hm
          exact absurd hm (by simp)
    · rw [if_neg hc] at hm
      exact absurd hm (by simp)

theorem findSome?_some_mem {α β : Type} {f : α → Option β} :
    ∀ {ks : List α} {r : β}, ks.findSome? f = some r → ∃ k ∈ ks, f k = some r := by
  intro ks
  induction ks with
  | nil => intro r hr; simp [List.findSome?] at hr
  | cons k ks ih =>
    intro r hr
    rw [List.findSome?_cons] at hr
    cases hk : f k with
    | some b =>
      rw [hk] at hr
      exact ⟨k, by simp, by rw [hk, ← hr]⟩
    | none =>
      rw [hk] at hr
      obtain ⟨k', hk', hfk'⟩ := ih hr
      exact ⟨k', by simp [hk'], hfk'⟩

theorem findSome?_isSome_of_mem {α β : Type} {f : α → Option β} :
    ∀ {ks : List α} {k : α} {r : β}, k ∈ ks → f k = some r →
      (ks.findSome? f).isSome = true := by
  intro ks
  induction ks with
  | nil => intro k r hk; simp at hk
  | cons k0 ks ih =>
    intro k r hk hfk
    rw [List.findSome?_cons]
    cases hk0 : f k0 with
    | some b => rfl
    | none =>
      rcases List.mem_cons.mp hk with rfl | hk
      · rw [hk0] at hfk; exact absurd hfk (by simp)
      · exact ih hk hfk

theorem findSome?_cons_none {α β : Type} {f : α → Option β} {k : α} {ks : List α}
    (h : f k = none) : (k :: ks).findSome? f = ks.findSome? f := by
  rw [List.findSome?_cons, h]

theorem findSome?_cons_some {α β : Type} {f : α → Option β} {k : α} {ks : List α}
    {r : β} (h : f k = some r) : (k :: ks).findSome? f = some r := by
  rw [List.findSome?_cons, h]

theorem matchGroupK_none_of_takeHex {ext rest : List Char} {k : Nat}
    (h : takeHex k rest = none) : matchGroupK ext ('.' :: rest) k = none := by
  rw [show matchGroupK ext ('.' :: rest) k =
    (if ('.' : Char) = '.' then
      (takeHex k rest).bind (fun r =>
        if startsWith ext r then some (List.drop ext.length r) else none)
    else none) from rfl, if_pos rfl, h]
  rfl

theorem tryMatch_pos {P ext l : List Char} (hs : startsWith P l = true) :
    tryMatch P ext l =
      (match [12, 11, 10, 9, 8].findSome? (matchGroupK ext (List.drop P.length l)) with
      | some r => some r
      | none =>
        if startsWith ext (List.drop P.length l) then
          some (List.drop ext.length (List.drop P.length l))
        else none) := by
  rw [show tryMatch P ext l =
    (if startsWith P l then
      (match [12, 11, 10, 9, 8].findSome? (matchGroupK ext (List.drop P.length l)) with
      | some r => some r
      | none =>
        if startsWith ext (List.drop P.length l) then
          some (List.drop ext.length (List.drop P.length l))
        else none)
    else none) from rfl, if_pos hs]

theorem tryMatch_neg {P ext l : List Char} (hs : startsWith P l = false) :
    tryMatch P ext l = none := by
  rw [show tryMatch P ext l =
    (if startsWith P l then
      (match [12, 11, 10, 9, 8].findSome? (matchGroupK ext (List.drop P.length l)) with
      | some r => some r
      | none =>
        if startsWith ext (List.drop P.length l) then
          some (List.drop ext.length (List.drop P.length l))
        else none)
    else none) from rfl, hs]
  rfl

theorem tryMatch_shape {P ext l r : List Char} (hm : tryMatch P ext l = some r) :
    l = P ++ (ext ++ r) ∨
    ∃ d, l = P ++ ('.' :: (d ++ (ext ++ r))) ∧ (∀ c ∈ d, isHexLower c = true) ∧
      8 ≤ d.length ∧ d.length ≤ 12 := by
  by_cases hs : startsWith P l = true
  · obtain ⟨t', ht'⟩ := startsWith_iff.mp hs
    have hdrop : List.drop P.length l = t' := by rw [← ht', List.drop_left]
    rw [tryMatch_pos hs, hdrop] at hm
    cases hfs : [12, 11, 10, 9, 8].findSome? (matchGroupK ext t') with
    | some r' =>
      rw [hfs] at hm
      have hr : r' = r := by injection hm
      subst hr
      obtain ⟨k, hkmem, hfk⟩ := findSome?_some_mem hfs
      obtain ⟨d, hdt, hdk, hdh⟩ := matchGroupK_some hfk
      have hk : k = 12 ∨ k = 11 ∨ k = 10 ∨ k = 9 ∨ k = 8 := by simpa using hkmem
      refine Or.inr ⟨d, by rw [← ht', hdt], hdh, by omega, by omega⟩
    | none =>
      rw [hfs] at hm
      by_cases hse : startsWith ext t' = true
      · rw [if_pos hse] at hm
        obtain ⟨w, hw⟩ := startsWith_iff.mp hse
        have hr : r = w := by
          injection hm with hm'
          rw [← hm', ← hw, List.drop_left]
        subst hr
        exact Or.inl (by rw [← ht', ← hw])
      · rw [if_neg hse] at hm
        exact absurd hm (by simp)
  · rw [tryMatch_neg (by simp_all)] at hm
    exact absurd hm (by simp)

theorem tryMatch_isSome_unhashed {P ext y : List Char} :
    (tryMatch P ext (P ++ (ext ++ y))).isSome = true := by
  have hs : startsWith P (P ++ (ext ++ y)) = true :=
    startsWith_iff.mpr (List.prefix_append _ _)
  rw [tryMatch_pos hs, List.drop_left]
  cases hfs : [12, 11, 10, 9, 8].findSome? (matchGroupK ext (ext ++ y)) with
  | some r => rfl
  | none =>
    show (if startsWith ext (ext ++ y) = true then
      some (List.drop ext.length (ext ++ y)) else none).isSome = true
    rw [if_pos (startsWith_iff.mpr (List.prefix_append _ _))]
    rfl

theorem tryMatch_isSome_hashed {P ext d y : List Char}
    (hhex : ∀ c ∈ d, isHexLower c = true) (h8 : 8 ≤ d.length) (h12 : d.length ≤ 12) :
    (tryMatch P ext (P ++ ('.' :: (d ++ (ext ++ y))))).isSome = true := by
  have hs : startsWith P (P ++ ('.' :: (d ++ (ext ++ y)))) = true :=
    startsWith_iff.mpr (List.prefix_append _ _)
  rw [tryMatch_pos hs, List.drop_left]
  have hfk : matchGroupK ext ('.' :: (d ++ (ext ++ y))) d.length = some y :=
    matchGroupK_intro hhex rfl y
  have hmem : d.length ∈ [12, 11, 10, 9, 8] := by
    have : d.length = 8 ∨ d.length = 9 ∨ d.length = 10 ∨ d.length = 11 ∨ d.length = 12 := by
      omega
    rcases this with h | h | h | h | h <;> rw [h] <;> decide
  have hss := findSome?_isSome_of_mem hmem hfk
  cases hfs : [12, 11, 10, 9, 8].findSome? (matchGroupK ext ('.' :: (d ++ (ext ++ y)))) with
  | some r => rfl
  | none => rw [hfs] at hss; simp at hss

theorem tryMatch_repl {Pt extT hdig y : List Char}
    (Hh : ∀ c ∈ hdig, isHexLower c = true) (Hlen : hdig.length = 10) :
    tryMatch ('/' :: Pt) ('.' :: extT)
      (('/' :: Pt) ++ ('.' :: (hdig ++ ('.' :: (extT ++ y))))) = some y := by
  have hs : startsWith ('/' :: Pt)
      (('/' :: Pt) ++ ('.' :: (hdig ++ ('.' :: (extT ++ y))))) = true :=
    startsWith_iff.mpr (List.prefix_append _ _)
  rw [tryMatch_pos hs, List.drop_left]
  have hdot : isHexLower '.' = false := by decide
  have h12 : matchGroupK ('.' :: extT) ('.' :: (hdig ++ ('.' :: (extT ++ y)))) 12 = none :=
    matchGroupK_none_of_takeHex (takeHex_none_stop Hh hdot (by omega) _)
  have h11 : matchGroupK ('.' :: extT) ('.' :: (hdig ++ ('.' :: (extT ++ y)))) 11 = none :=
    matchGroupK_none_of_takeHex (takeHex_none_stop Hh hdot (by omega) _)
  have h10 : matchGroupK ('.' :: extT) ('.' :: (hdig ++ ('.' :: (extT ++ y)))) 10 = some y := by
    have hmk := @matchGroupK_intro ('.' :: extT) hdig Hh 10 Hlen y
    exact hmk
  rw [findSome?_cons_none h12, findSome?_cons_none h11, findSome?_cons_some h10]

theorem tryMatch_some_length {Pt ext l r : List Char}
    (hm : tryMatch ('/' :: Pt) ext l = some r) : r.length < l.length := by
  rcases tryMatch_shape hm with he | ⟨d, he, _, _, _⟩ <;> subst he <;>
    simp [List.length_append] <;> omega

theorem rwAux_nil (P ext repl : List Char) : ∀ f, rwAux P ext repl f [] = [] := by
  intro f
  cases f <;> rfl

theorem rwAux_cons_some {P ext repl : List Char} {c : Char} {rest rem : List Char}
    (htm : tryMatch P ext (c :: rest) = some rem) (f : Nat) :
    rwAux P ext repl (f + 1) (c :: rest) = repl ++ rwAux P ext repl f rem := by
  rw [show rwAux P ext repl (f + 1) (c :: rest) =
    (match tryMatch P ext (c :: rest) with
    | some rem => repl ++ rwAux P ext repl f rem
    | none => c :: rwAux P ext repl f rest) from rfl, htm]

theorem rwAux_cons_none {P ext repl : List Char} {c : Char} {rest : List Char}
    (htm : tryMatch P ext (c :: rest) = none) (f : Nat) :
    rwAux P ext repl (f + 1) (c :: rest) = c :: rwAux P ext repl f rest := by
  rw [show rwAux P ext repl (f + 1) (c :: rest) =
    (match tryMatch P ext (c :: rest) with
    | some rem => repl ++ rwAux P ext repl f rem
    | none => c :: rwAux P ext repl f rest) from rfl, htm]

theorem hex_ne_slash {c : Char} (h : isHexLower c = true) : c ≠ '/' := by
  intro he
  subst he
  exact absurd h (by decide)

theorem matchable_unhashed {P ext l : List Char} (h : (P ++ ext) <+: l) :
    (tryMatch P ext l).isSome = true := by
  obtain ⟨w, hw⟩ := h
  rw [← hw, List.append_assoc]
  exact tryMatch_isSome_unhashed

theorem matchable_hashed {P ext d l : List Char}
    (hhex : ∀ c ∈ d, isHexLower c = true) (h8 : 8 ≤ d.length) (h12 : d.length ≤ 12)
    (h : (P ++ ('.' :: (d ++ ext))) <+: l) :
    (tryMatch P ext l).isSome = true := by
  obtain ⟨w, hw⟩ := h
  rw [← hw, List.append_assoc,
    show ('.' :: (d ++ ext)) ++ w = '.' :: (d ++ (ext ++ w)) from by
      rw [List.cons_append, List.append_assoc]]
  exact tryMatch_isSome_hashed hhex h8 h12

theorem pullback_noslash {Pt ext s : List Char} :
    ∀ (fuel : Nat) (m q : List Char), m.length ≤ fuel → (∀ c ∈ q, c ≠ '/') →
      q <+: rwAux ('/' :: Pt) ext (('/' :: Pt) ++ s) fuel m → q <+: m := by
  intro fuel
  induction fuel with
  | zero =>
    intro m q hm _ hpr
    have hnil : m = [] := List.eq_nil_of_length_eq_zero (Nat.le_zero.mp hm)
    subst hnil
    exact hpr
  | succ f ih =>
    intro m q hm hns hpr
    cases m with
    | nil =>
      rw [rwAux_nil] at hpr
      exact hpr
    | cons c rest =>
      cases q with
      | nil => exact List.nil_prefix
      | cons a q' =>
        cases htm : tryMatch ('/' :: Pt) ext (c :: rest) with
        | some rem =>
          rw [rwAux_cons_some htm] at hpr
          have ha : a = '/' := (List.cons_prefix_cons.mp hpr).1
          exact absurd ha (hns a (by simp))
        | none =>
          rw [rwAux_cons_none htm] at hpr
          obtain ⟨ha, hq'⟩ := List.cons_prefix_cons.mp hpr
          subst ha
          refine List.cons_prefix_cons.mpr ⟨rfl, ?_⟩
          exact ih rest q' (by simp at hm; omega) (fun x hx => hns x (by simp [hx])) hq'

theorem pullback_main {Pt ext s u : List Char}
    (HPnb : ∀ i, i < ('/' :: Pt).length → 0 < i → ¬ (('/' :: Pt).drop i <+: ('/' :: Pt)))
    (hu : ∃ u', u = '.' :: u' ∧ ∀ c ∈ u', c ≠ '/') :
    ∀ (fuel : Nat) (m : List Char) (j : Nat), m.length ≤ fuel → 1 ≤ j →
      j ≤ ('/' :: Pt).length →
      ((('/' :: Pt).drop j ++ u) <+:
        rwAux ('/' :: Pt) ext (('/' :: Pt) ++ s) fuel m) →
      (('/' :: Pt).drop j ++ u) <+: m := by
  intro fuel
  induction fuel with
  | zero =>
    intro m j hm _ _ hpr
    have hnil : m = [] := List.eq_nil_of_length_eq_zero (Nat.le_zero.mp hm)
    subst hnil
    exact hpr
  | succ f ih =>
    intro m j hm hj1 hj2 hpr
    cases m with
    | nil =>
      rw [rwAux_nil] at hpr
      exact hpr
    | cons c rest =>
      cases htm : tryMatch ('/' :: Pt) ext (c :: rest) with
      | some rem =>
        exfalso
        rw [rwAux_cons_some htm] at hpr
        by_cases hj : j < ('/' :: Pt).length
        · have h1 : ('/' :: Pt).drop j <+: (('/' :: Pt).drop j ++ u) :=
            List.prefix_append _ _
          have h2 := h1.trans hpr
          have h3 : ('/' :: Pt) <+:
              (('/' :: Pt) ++ s) ++
                rwAux ('/' :: Pt) ext (('/' :: Pt) ++ s) f rem := by
            rw [List.append_assoc]
            exact List.prefix_append _ _
          have h4 : ('/' :: Pt).drop j <+: ('/' :: Pt) := by
            refine pr_shorter h2 h3 ?_
            simp only [List.length_drop]
            omega
          exact absurd h4 (HPnb j hj hj1)
        · have hj' : j = ('/' :: Pt).length := by omega
          obtain ⟨u', hu', _⟩ := hu
          rw [hj', List.drop_length, List.nil_append, hu'] at hpr
          have hd := (List.cons_prefix_cons.mp hpr).1
          exact absurd hd (by decide)
      | none =>
        rw [rwAux_cons_none htm] at hpr
        by_cases hj : j < ('/' :: Pt).length
        · rw [List.drop_eq_getElem_cons hj, List.cons_append] at hpr ⊢
          obtain ⟨hc, htail⟩ := List.cons_prefix_cons.mp hpr
          refine List.cons_prefix_cons.mpr ⟨hc, ?_⟩
          have hstep : ('/' :: Pt).drop (j + 1) ++ u <+: rest :=
            ih rest (j + 1) (by simp at hm; omega) (by omega) (by omega) htail
          exact hstep
        · have hj' : j = ('/' :: Pt).length := by omega
          rw [hj', List.drop_length, List.nil_append] at hpr ⊢
          obtain ⟨u', hu', hns⟩ := hu
          rw [hu'] at hpr ⊢
          obtain ⟨hc, htail⟩ := List.cons_prefix_cons.mp hpr
          refine List.cons_prefix_cons.mpr ⟨hc, ?_⟩
          exact pullback_noslash f rest u' (by simp at hm; omega) hns htail

theorem no_bad_at_repl {Pt extT hdig u w : List Char}
    (Hh : ∀ c ∈ hdig, isHexLower c = true) (Hhlen : hdig.length = 10)
    (HextNonHex : ∃ c ∈ extT, isHexLower c = false)
    (HextLen : extT.length ≤ hdig.length)
    (hu : u = '.' :: extT ∨
      ∃ d, u = '.' :: (d ++ ('.' :: extT)) ∧ (∀ c ∈ d, isHexLower c = true) ∧
        8 ≤ d.length ∧ d.length ≤ 12 ∧ d ≠ hdig) :
    ¬ ((('/' :: Pt) ++ u) <+:
      (('/' :: Pt) ++ ('.' :: (hdig ++ ('.' :: extT)))) ++ w) := by
  intro hpr
  rw [List.append_assoc] at hpr
  have hpr' : u <+: ('.' :: (hdig ++ ('.' :: extT))) ++ w :=
    (List.prefix_append_right_inj _).mp hpr
  rw [show ('.' :: (hdig ++ ('.' :: extT))) ++ w =
    '.' :: (hdig ++ ('.' :: (extT ++ w))) from by
      rw [List.cons_append, List.append_assoc, List.cons_append]] at hpr'
  rcases hu with hu | ⟨d, hu, hdhex, hd8, hd12, hdne⟩
  · subst hu
    obtain ⟨_, htail⟩ := List.cons_prefix_cons.mp hpr'
    have hext_hdig : extT <+: hdig := by
      refine pr_shorter htail (List.prefix_append _ _) HextLen
    obtain ⟨c, hc, hcf⟩ := HextNonHex
    exact absurd (Hh c (hext_hdig.subset hc)) (by simp [hcf])
  · subst hu
    obtain ⟨_, htail⟩ := List.cons_prefix_cons.mp hpr'
    rcases Nat.lt_trichotomy d.length hdig.length with hlt | heq | hgt
    · have hd_hdig : d <+: hdig := by
        refine pr_shorter ((List.prefix_append d _).trans htail)
          (List.prefix_append _ _) (by omega)
      obtain ⟨e, he⟩ := hd_hdig
      cases e with
      | nil =>
        rw [List.append_nil] at he
        exact absurd (congrArg List.length he) (by omega)
      | cons e0 e' =>
        rw [← he, show (d ++ e0 :: e') ++ ('.' :: (extT ++ w)) =
          d ++ (e0 :: (e' ++ ('.' :: (extT ++ w)))) from by
            rw [List.append_assoc, List.cons_append]] at htail
        have hdot := ((List.prefix_append_right_inj d).mp htail)
        have he0 : ('.' : Char) = e0 := (List.cons_prefix_cons.mp hdot).1
        have he0m : e0 ∈ hdig := by
          rw [← he]
          exact List.mem_append.mpr (Or.inr (by simp))
        have := Hh e0 he0m
        rw [← he0] at this
        exact absurd this (by decide)
    · have hd_hdig : d <+: hdig := by
        refine pr_shorter ((List.prefix_append d _).trans htail)
          (List.prefix_append _ _) (by omega)
      exact hdne (hd_hdig.eq_of_length heq)
    · have hhdig_d : hdig <+: d := by
        refine pr_shorter (List.prefix_append _ _)
          ((List.prefix_append d _).trans htail) (by omega)
      obtain ⟨e, he⟩ := hhdig_d
      cases e with
      | nil =>
        rw [List.append_nil] at he
        exact absurd (congrArg List.length he) (by omega)
      | cons e0 e' =>
        rw [← he, show (hdig ++ e0 :: e') ++ ('.' :: extT) =
          hdig ++ (e0 :: (e' ++ ('.' :: extT))) from by
            rw [List.append_assoc, List.cons_append]] at htail
        have hdot := (List.prefix_append_right_inj hdig).mp htail
        have he0 : e0 = '.' := (List.cons_prefix_cons.mp hdot).1
        have he0m : e0 ∈ d := by
          rw [← he]
          exact List.mem_append.mpr (Or.inr (by simp))
        have := hdhex e0 he0m
        rw [he0] at this
        exact absurd this (by decide)

theorem utail_of_bad {extT hdig u : List Char}
    (HextNoSlash : ∀ c ∈ extT, c ≠ '/')
    (hu : u = '.' :: extT ∨
      ∃ d, u = '.' :: (d ++ ('.' :: extT)) ∧ (∀ c ∈ d, isHexLower c = true) ∧
        8 ≤ d.length ∧ d.length ≤ 12 ∧ d ≠ hdig) :
    ∃ u', u = '.' :: u' ∧ ∀ c ∈ u', c ≠ '/' := by
  rcases hu with hu | ⟨d, hu, hdhex, _, _, _⟩
  · exact ⟨extT, hu, HextNoSlash⟩
  · refine ⟨d ++ ('.' :: extT), hu, ?_⟩
    intro c hc
    rcases List.mem_append.mp hc with hc | hc
    · exact hex_ne_slash (hdhex c hc)
    · rcases List.mem_cons.mp hc with rfl | hc
      · decide
      · exact HextNoSlash c hc

theorem bad_matchable {Pt extT hdig u m : List Char}
    (hu : u = '.' :: extT ∨
      ∃ d, u = '.' :: (d ++ ('.' :: extT)) ∧ (∀ c ∈ d, isHexLower c = true) ∧
        8 ≤ d.length ∧ d.length ≤ 12 ∧ d ≠ hdig)
    (hpr : (('/' :: Pt) ++ u) <+: m) :
    (tryMatch ('/' :: Pt) ('.' :: extT) m).isSome = true := by
  rcases hu with hu | ⟨d, hu, hdhex, hd8, hd12, _⟩
  · subst hu
    exact matchable_unhashed hpr
  · subst hu
    exact matchable_hashed hdhex hd8 hd12 hpr

theorem rw_no_stale {Pt extT hdig : List Char}
    (HPnb : ∀ i, i < ('/' :: Pt).length → 0 < i → ¬ (('/' :: Pt).drop i <+: ('/' :: Pt)))
    (HextNoSlash : ∀ c ∈ extT, c ≠ '/')
    (HextNonHex : ∃ c ∈ extT, isHexLower c = false)
    (HextLen : extT.length ≤ hdig.length)
    (Hh : ∀ c ∈ hdig, isHexLower c = true) (Hhlen : hdig.length = 10)
    {u : List Char}
    (hu : u = '.' :: extT ∨
      ∃ d, u = '.' :: (d ++ ('.' :: extT)) ∧ (∀ c ∈ d, isHexLower c = true) ∧
        8 ≤ d.length ∧ d.length ≤ 12 ∧ d ≠ hdig) :
    ∀ (fuel : Nat) (m : List Char), m.length ≤ fuel →
      occursB (('/' :: Pt) ++ u)
        (rwAux ('/' :: Pt) ('.' :: extT)
          (('/' :: Pt) ++ ('.' :: (hdig ++ ('.' :: extT)))) fuel m) = false := by
  intro fuel
  induction fuel with
  | zero =>
    intro m hm
    have hnil : m = [] := List.eq_nil_of_length_eq_zero (Nat.le_zero.mp hm)
    subst hnil
    rfl
  | succ f ih =>
    intro m hm
    cases m with
    | nil => rfl
    | cons c rest =>
      cases htm : tryMatch ('/' :: Pt) ('.' :: extT) (c :: rest) with
      | some rem =>
        rw [rwAux_cons_some htm]
        refine occursB_append_of ?_ (ih rem ?_)
        · intro i hi hpr
          by_cases hi0 : i = 0
          · subst hi0
            rw [List.drop_zero] at hpr
            exact no_bad_at_repl Hh Hhlen HextNonHex HextLen hu hpr
          · by_cases hiP : i < ('/' :: Pt).length
            · rw [List.drop_append_of_le_length (by omega)] at hpr
              have h1 : ('/' :: Pt) <+: ('/' :: Pt) ++ u := List.prefix_append _ _
              have h2 := h1.trans hpr
              rw [List.append_assoc] at h2
              have h3 : ('/' :: Pt).drop i <+:
                  ('/' :: Pt).drop i ++
                    (('.' :: (hdig ++ ('.' :: extT))) ++
                      rwAux ('/' :: Pt) ('.' :: extT)
                        (('/' :: Pt) ++ ('.' :: (hdig ++ ('.' :: extT)))) f rem) :=
                List.prefix_append _ _
              have h4 : ('/' :: Pt).drop i <+: ('/' :: Pt) := by
                refine pr_shorter h3 h2 ?_
                simp only [List.length_drop]
                omega
              exact absurd h4 (HPnb i hiP (by omega))
            · have hiP' : ('/' :: Pt).length ≤ i := by omega
              rw [show i = ('/' :: Pt).length + (i - ('/' :: Pt).length) from by omega,
                List.drop_append] at hpr
              have hilt : i - ('/' :: Pt).length < ('.' :: (hdig ++ ('.' :: extT))).length := by
                rw [List.length_append] at hi
                omega
              rw [List.drop_eq_getElem_cons hilt, List.cons_append] at hpr
              have hc' := (List.cons_prefix_cons.mp hpr).1
              have hmem := List.getElem_mem hilt
              have hslash : ('.' :: (hdig ++ ('.' :: extT)))[i - ('/' :: Pt).length] ≠ '/' := by
                intro he
                rw [he] at hmem
                rcases List.mem_cons.mp hmem with hx | hx
                · exact absurd hx (by decide)
                · rcases List.mem_append.mp hx with hx | hx
                  · exact absurd rfl (hex_ne_slash (Hh _ hx))
                  · rcases List.mem_cons.mp hx with hx | hx
                    · exact absurd hx (by decide)
                    · exact HextNoSlash _ hx rfl
              exact hslash hc'.symm
        · have hlr := tryMatch_some_length htm
          rw [List.length_cons] at hlr hm
          omega
      | none =>
        rw [rwAux_cons_none htm, occursB_cons]
        rw [List.length_cons] at hm
        have h2 : occursB (('/' :: Pt) ++ u)
            (rwAux ('/' :: Pt) ('.' :: extT)
              (('/' :: Pt) ++ ('.' :: (hdig ++ ('.' :: extT)))) f rest) = false := by
          refine ih rest ?_
          omega
        rw [h2, Bool.or_false, startsWith_eq_false]
        intro hpr
        rw [List.cons_append] at hpr
        obtain ⟨hc, htail⟩ := List.cons_prefix_cons.mp hpr
        have hback : (('/' :: Pt).drop 1 ++ u) <+: rest :=
          pullback_main HPnb (utail_of_bad HextNoSlash hu) f rest 1
            (by omega) le_rfl (by simp) htail
        have hm' : (('/' :: Pt) ++ u) <+: c :: rest := by
          rw [List.cons_append]
          exact List.cons_prefix_cons.mpr ⟨hc, hback⟩
        have := bad_matchable hu hm'
        rw [htm] at this
        exact absurd this (by simp)

theorem rw_occurs_repl {Pt extT hdig : List Char} {u : List Char}
    (hu : u = '.' :: extT ∨
      ∃ d, u = '.' :: (d ++ ('.' :: extT)) ∧ (∀ c ∈ d, isHexLower c = true) ∧
        8 ≤ d.length ∧ d.length ≤ 12) :
    ∀ (fuel : Nat) (m : List Char), m.length ≤ fuel →
      occursB (('/' :: Pt) ++ u) m = true →
      occursB (('/' :: Pt) ++ ('.' :: (hdig ++ ('.' :: extT))))
        (rwAux ('/' :: Pt) ('.' :: extT)
          (('/' :: Pt) ++ ('.' :: (hdig ++ ('.' :: extT)))) fuel m) = true := by
  have hu' : u = '.' :: extT ∨
      ∃ d, u = '.' :: (d ++ ('.' :: extT)) ∧ (∀ c ∈ d, isHexLower c = true) ∧
        8 ≤ d.length ∧ d.length ≤ 12 ∧ d ≠ hdig ++ ['!'] := by
    rcases hu with hu | ⟨d, h1, h2, h3, h4⟩
    · exact Or.inl hu
    · refine Or.inr ⟨d, h1, h2, h3, h4, ?_⟩
      intro he
      have := h2 '!' (by rw [he]; exact List.mem_append.mpr (Or.inr (by simp)))
      exact absurd this (by decide)
  intro fuel
  induction fuel with
  | zero =>
    intro m hm hocc
    have hnil : m = [] := List.eq_nil_of_length_eq_zero (Nat.le_zero.mp hm)
    subst hnil
    exact absurd hocc (by simp [occursB, startsWith])
  | succ f ih =>
    intro m hm hocc
    cases m with
    | nil => exact absurd hocc (by simp [occursB, startsWith])
    | cons c rest =>
      cases htm : tryMatch ('/' :: Pt) ('.' :: extT) (c :: rest) with
      | some rem =>
        rw [rwAux_cons_some htm]
        exact occursB_of_pr (List.prefix_append _ _)
      | none =>
        rw [rwAux_cons_none htm]
        rw [occursB_cons] at hocc
        rcases Bool.or_eq_true_iff.mp hocc with hs | hocc'
        · exfalso
          have hpr := startsWith_iff.mp hs
          have := bad_matchable hu' hpr
          rw [htm] at this
          exact absurd this (by simp)
        · refine occursB_tail (ih rest ?_ hocc')
          rw [List.length_cons] at hm
          omega

theorem rw_idem {Pt extT hdig : List Char}
    (HPnb : ∀ i, i < ('/' :: Pt).length → 0 < i → ¬ (('/' :: Pt).drop i <+: ('/' :: Pt)))
    (HextNoSlash : ∀ c ∈ extT, c ≠ '/')
    (Hh : ∀ c ∈ hdig, isHexLower c = true) (Hhlen : hdig.length = 10) :
    ∀ (f₁ : Nat) (f₂ : Nat) (m : List Char), m.length ≤ f₁ →
      (rwAux ('/' :: Pt) ('.' :: extT)
        (('/' :: Pt) ++ ('.' :: (hdig ++ ('.' :: extT)))) f₁ m).length ≤ f₂ →
      rwAux ('/' :: Pt) ('.' :: extT)
        (('/' :: Pt) ++ ('.' :: (hdig ++ ('.' :: extT)))) f₂
        (rwAux ('/' :: Pt) ('.' :: extT)
          (('/' :: Pt) ++ ('.' :: (hdig ++ ('.' :: extT)))) f₁ m) =
      rwAux ('/' :: Pt) ('.' :: extT)
        (('/' :: Pt) ++ ('.' :: (hdig ++ ('.' :: extT)))) f₁ m := by
  intro f₁
  induction f₁ with
  | zero =>
    intro f₂ m hm _
    have hnil : m = [] := List.eq_nil_of_length_eq_zero (Nat.le_zero.mp hm)
    subst hnil
    exact rwAux_nil _ _ _ _
  | succ f ih =>
    intro f₂ m hm hl2
    cases m with
    | nil =>
      rw [rwAux_nil]
      exact rwAux_nil _ _ _ _
    | cons c rest =>
      rw [List.length_cons] at hm
      cases htm : tryMatch ('/' :: Pt) ('.' :: extT) (c :: rest) with
      | some rem =>
        rw [rwAux_cons_some htm] at hl2 ⊢
        have h9 : 0 < (('/' :: Pt) ++ ('.' :: (hdig ++ ('.' :: extT)))).length := by
          simp
        rw [List.length_append] at hl2
        cases f₂ with
        | zero => omega
        | succ g =>
          have hrem : rem.length ≤ f := by
            have hlr := tryMatch_some_length htm
            rw [List.length_cons] at hlr
            omega
          have hX : (rwAux ('/' :: Pt) ('.' :: extT)
              (('/' :: Pt) ++ ('.' :: (hdig ++ ('.' :: extT)))) f rem).length ≤ g := by
            omega
          have htm2 : tryMatch ('/' :: Pt) ('.' :: extT)
              ('/' :: ((Pt ++ ('.' :: (hdig ++ ('.' :: extT)))) ++
                rwAux ('/' :: Pt) ('.' :: extT)
                  (('/' :: Pt) ++ ('.' :: (hdig ++ ('.' :: extT)))) f rem)) =
              some (rwAux ('/' :: Pt) ('.' :: extT)
                (('/' :: Pt) ++ ('.' :: (hdig ++ ('.' :: extT)))) f rem) := by
            have hnorm : ('/' :: ((Pt ++ ('.' :: (hdig ++ ('.' :: extT)))) ++
                rwAux ('/' :: Pt) ('.' :: extT)
                  (('/' :: Pt) ++ ('.' :: (hdig ++ ('.' :: extT)))) f rem)) =
                (('/' :: Pt) ++ ('.' :: (hdig ++ ('.' ::
                  (extT ++ rwAux ('/' :: Pt) ('.' :: extT)
                    (('/' :: Pt) ++ ('.' :: (hdig ++ ('.' :: extT)))) f rem))))) := by
              simp [List.append_assoc]
            rw [hnorm]
            exact tryMatch_repl Hh Hhlen
          show rwAux ('/' :: Pt) ('.' :: extT)
              (('/' :: Pt) ++ ('.' :: (hdig ++ ('.' :: extT)))) (g + 1)
              ('/' :: ((Pt ++ ('.' :: (hdig ++ ('.' :: extT)))) ++
                rwAux ('/' :: Pt) ('.' :: extT)
                  (('/' :: Pt) ++ ('.' :: (hdig ++ ('.' :: extT)))) f rem)) =
            (('/' :: Pt) ++ ('.' :: (hdig ++ ('.' :: extT)))) ++
              rwAux ('/' :: Pt) ('.' :: extT)
                (('/' :: Pt) ++ ('.' :: (hdig ++ ('.' :: extT)))) f rem
          rw [rwAux_cons_some htm2 g, ih g rem hrem hX]
      | none =>
        rw [rwAux_cons_none htm] at hl2 ⊢
        rw [List.length_cons] at hl2
        cases f₂ with
        | zero => omega
        | succ g =>
          have htm2 : tryMatch ('/' :: Pt) ('.' :: extT)
              (c :: rwAux ('/' :: Pt) ('.' :: extT)
                (('/' :: Pt) ++ ('.' :: (hdig ++ ('.' :: extT)))) f rest) = none := by
            cases htm2 : tryMatch ('/' :: Pt) ('.' :: extT)
                (c :: rwAux ('/' :: Pt) ('.' :: extT)
                  (('/' :: Pt) ++ ('.' :: (hdig ++ ('.' :: extT)))) f rest) with
            | none => rfl
            | some r =>
              exfalso
              have hshape := tryMatch_shape htm2
              have hbadpr : ∃ u, (u = '.' :: extT ∨
                  ∃ d, u = '.' :: (d ++ ('.' :: extT)) ∧
                    (∀ c ∈ d, isHexLower c = true) ∧ 8 ≤ d.length ∧ d.length ≤ 12) ∧
                  ((('/' :: Pt) ++ u) <+:
                    c :: rwAux ('/' :: Pt) ('.' :: extT)
                      (('/' :: Pt) ++ ('.' :: (hdig ++ ('.' :: extT)))) f rest) := by
                rcases hshape with he | ⟨d, he, hdh, hd8, hd12⟩
                · refine ⟨'.' :: extT, Or.inl rfl, ?_⟩
                  rw [he, ← List.append_assoc]
                  exact List.prefix_append _ _
                · refine ⟨'.' :: (d ++ ('.' :: extT)), Or.inr ⟨d, rfl, hdh, hd8, hd12⟩, ?_⟩
                  rw [he]
                  refine ⟨r, ?_⟩
                  rw [List.append_assoc]
                  congr 2
                  rw [List.cons_append, List.append_assoc, List.cons_append]
              obtain ⟨u, hu, hpr⟩ := hbadpr
              have hu2 : u = '.' :: extT ∨
                  ∃ d, u = '.' :: (d ++ ('.' :: extT)) ∧
                    (∀ c ∈ d, isHexLower c = true) ∧ 8 ≤ d.length ∧ d.length ≤ 12 ∧
                    d ≠ hdig ++ ['!'] := by
                rcases hu with hu | ⟨d, h1, h2, h3, h4⟩
                · exact Or.inl hu
                · refine Or.inr ⟨d, h1, h2, h3, h4, ?_⟩
                  intro hde
                  have := h2 '!' (by rw [hde]; exact List.mem_append.mpr (Or.inr (by simp)))
                  exact absurd this (by decide)
              rw [List.cons_append] at hpr
              obtain ⟨hc, htail⟩ := List.cons_prefix_cons.mp hpr
              have hback := pullback_main HPnb (utail_of_bad HextNoSlash hu2) f rest 1
                (by omega) le_rfl (by simp) htail
              have hm2 : (('/' :: Pt) ++ u) <+: c :: rest := by
                rw [List.cons_append]
                exact List.cons_prefix_cons.mpr ⟨hc, hback⟩
              have := bad_matchable hu2 hm2
              rw [htm] at this
              exact absurd this (by simp)
          rw [rwAux_cons_none htm2 g, ih g rest (by omega) (by omega)]

theorem rewriteAsset_spec {Pt extT hdig : List Char}
    (HPnb : ∀ i, i < ('/' :: Pt).length → 0 < i → ¬ (('/' :: Pt).drop i <+: ('/' :: Pt)))
    (HextNoSlash : ∀ c ∈ extT, c ≠ '/')
    (HextNonHex : ∃ c ∈ extT, isHexLower c = false)
    (HextLen : extT.length ≤ hdig.length)
    (Hh : ∀ c ∈ hdig, isHexLower c = true) (Hhlen : hdig.length = 10)
    (html : List Char) :
    occursB (('/' :: Pt) ++ ('.' :: extT))
      (rewriteAsset ('/' :: Pt) ('.' :: extT)
        (('/' :: Pt) ++ ('.' :: (hdig ++ ('.' :: extT)))) html) = false ∧
    (∀ d : List Char, (∀ c ∈ d, isHexLower c = true) → 8 ≤ d.length → d.length ≤ 12 →
      d ≠ hdig →
      occursB (('/' :: Pt) ++ ('.' :: (d ++ ('.' :: extT))))
        (rewriteAsset ('/' :: Pt) ('.' :: extT)
          (('/' :: Pt) ++ ('.' :: (hdig ++ ('.' :: extT)))) html) = false) ∧
    ((occursB (('/' :: Pt) ++ ('.' :: extT)) html = true ∨
      ∃ d : List Char, (∀ c ∈ d, isHexLower c = true) ∧ 8 ≤ d.length ∧ d.length ≤ 12 ∧
        occursB (('/' :: Pt) ++ ('.' :: (d ++ ('.' :: extT)))) html = true) →
      occursB (('/' :: Pt) ++ ('.' :: (hdig ++ ('.' :: extT))))
        (rewriteAsset ('/' :: Pt) ('.' :: extT)
          (('/' :: Pt) ++ ('.' :: (hdig ++ ('.' :: extT)))) html) = true) := by
  refine ⟨?_, ?_, ?_⟩
  · exact rw_no_stale HPnb HextNoSlash HextNonHex HextLen Hh Hhlen
      (Or.inl rfl) html.length html le_rfl
  · intro d hd h8 h12 hdne
    exact rw_no_stale HPnb HextNoSlash HextNonHex HextLen Hh Hhlen
      (Or.inr ⟨d, rfl, hd, h8, h12, hdne⟩) html.length html le_rfl
  · intro hocc
    rcases hocc with hocc | ⟨d, hd, h8, h12, hocc⟩
    · exact rw_occurs_repl (Or.inl rfl) html.length html le_rfl hocc
    · exact rw_occurs_repl (Or.inr ⟨d, rfl, hd, h8, h12⟩) html.length html le_rfl hocc

/-- Claim C2: for each tracked asset, after the regex rewrite with the
current digest, the document contains zero occurrences of the unhashed web
path and zero occurrences of any differently-hashed form (8–12 lowercase
hex digits), and if any such form occurred in the input then the current
hashed web path occurs in the output (every occurrence is replaced, since
none survives). -/
theorem claim_C2 :
    ∀ a ∈ trackedAssets, ∀ (hdig html : List Char),
      (∀ c ∈ hdig, isHexLower c = true) → hdig.length = 10 →
      occursB (a.2.1 ++ a.2.2)
        (rewriteAsset a.2.1 a.2.2 (webPath (hashedPath a.1 hdig)) html) = false ∧
      (∀ d : List Char, (∀ c ∈ d, isHexLower c = true) → 8 ≤ d.length → d.length ≤ 12 →
        d ≠ hdig →
        occursB (a.2.1 ++ '.' :: (d ++ a.2.2))
          (rewriteAsset a.2.1 a.2.2 (webPath (hashedPath a.1 hdig)) html) = false) ∧
      ((occursB (a.2.1 ++ a.2.2) html = true ∨
        ∃ d : List Char, (∀ c ∈ d, isHexLower c = true) ∧ 8 ≤ d.length ∧ d.length ≤ 12 ∧
          occursB (a.2.1 ++ '.' :: (d ++ a.2.2)) html = true) →
        occursB (webPath (hashedPath a.1 hdig))
          (rewriteAsset a.2.1 a.2.2 (webPath (hashedPath a.1 hdig)) html) = true) := by
  intro a ha hdig html Hh Hhlen
  have hext3 : ("css".data).length ≤ hdig.length := by rw [Hhlen]; decide
  have hext5 : ("woff2".data).length ≤ hdig.length := by rw [Hhlen]; decide
  rw [show trackedAssets = [(cssSrc, cssPat, cssExt), (fontRegSrc, fontRegPat, woff2Ext),
    (fontItaSrc, fontItaPat, woff2Ext)] from rfl] at ha
  rcases List.mem_cons.mp ha with rfl | ha
  · exact rewriteAsset_spec (by decide) (by decide) (by decide) hext3 Hh Hhlen html
  · rcases List.mem_cons.mp ha with rfl | ha
    · exact rewriteAsset_spec (by decide) (by decide) (by decide) hext5 Hh Hhlen html
    · rcases List.mem_cons.mp ha with rfl | ha
      · exact rewriteAsset_spec (by decide) (by decide) (by decide) hext5 Hh Hhlen html
      · exact absurd ha (List.not_mem_nil a)

/-- Claim C3: for identical inputs the rewrite is byte-for-byte identical
(the digest is a pure function of the asset bytes), and re-applying each
tracked asset's rewrite to its own output with the same digest returns the
output unchanged (idempotence). -/
theorem claim_C3 :
    (∀ b₁ b₂ : List Char, b₁ = b₂ → hashFile b₁ = hashFile b₂) ∧
    ∀ a ∈ trackedAssets, ∀ (hdig html : List Char),
      (∀ c ∈ hdig, isHexLower c = true) → hdig.length = 10 →
      rewriteAsset a.2.1 a.2.2 (webPath (hashedPath a.1 hdig))
        (rewriteAsset a.2.1 a.2.2 (webPath (hashedPath a.1 hdig)) html) =
      rewriteAsset a.2.1 a.2.2 (webPath (hashedPath a.1 hdig)) html := by
  refine ⟨fun b₁ b₂ hb => by rw [hb], ?_⟩
  intro a ha hdig html Hh Hhlen
  rw [show trackedAssets = [(cssSrc, cssPat, cssExt), (fontRegSrc, fontRegPat, woff2Ext),
    (fontItaSrc, fontItaPat, woff2Ext)] from rfl] at ha
  rcases List.mem_cons.mp ha with rfl | ha
  · exact rw_idem (by decide) (by decide) Hh Hhlen html.length _ html le_rfl le_rfl
  · rcases List.mem_cons.mp ha with rfl | ha
    · exact rw_idem (by decide) (by decide) Hh Hhlen html.length _ html le_rfl le_rfl
    · rcases List.mem_cons.mp ha with rfl | ha
      · exact rw_idem (by decide) (by decide) Hh Hhlen html.length _ html le_rfl le_rfl
      · exact absurd ha (List.not_mem_nil a)

theorem claim_C2_witness :
    (∀ c ∈ "aaaaaaaaaa".data, isHexLower c = true) ∧
    occursB (cssPat ++ cssExt)
      (rewriteAsset cssPat cssExt (webPath (hashedPath cssSrc "aaaaaaaaaa".data))
        "x /assets/tailwind.css y /assets/tailwind.0123456789.css z".data) = false :=
  ⟨by decide,
   (claim_C2 (cssSrc, cssPat, cssExt) (by decide) "aaaaaaaaaa".data
     "x /assets/tailwind.css y /assets/tailwind.0123456789.css z".data
     (by decide) (by decide)).1⟩

theorem claim_C3_witness :
    (∀ c ∈ "0123456789".data, isHexLower c = true) ∧
    rewriteAsset cssPat cssExt (webPath (hashedPath cssSrc "0123456789".data))
      (rewriteAsset cssPat cssExt (webPath (hashedPath cssSrc "0123456789".data))
        "a /assets/tailwind.css b".data) =
    rewriteAsset cssPat cssExt (webPath (hashedPath cssSrc "0123456789".data))
      "a /assets/tailwind.css b".data :=
  ⟨by decide,
   claim_C3.2 (cssSrc, cssPat, cssExt) (by decide) "0123456789".data
     "a /assets/tailwind.css b".data (by decide) (by decide)⟩

theorem claim_C10_witness :
    existsSync [(cssSrc, "body".data)] cssSrc = true ∧
    (mainModel [(cssSrc, "body".data)] false false).errored = true ∧
    existsSync (mainModel [(cssSrc, "body".data)] false false).fs
      (hashedPath cssSrc (digestOf [(cssSrc, "body".data)] cssSrc)) = true :=
  ⟨by decide,
   (claim_C10 [(cssSrc, "body".data)] false (by decide) (by decide)).1,
   (claim_C10 [(cssSrc, "body".data)] false (by decide) (by decide)).2.1⟩

end PTL
